import Mathlib

/-!
Shallow embedding of `src/main.py` of devops-terraform-aws-cloudtrail-to-slack:
an AWS Lambda that receives S3 change-notification batches, fetches and decodes
gzip-compressed CloudTrail log objects, flattens each sub-event to a dotted-path
mapping, evaluates user-supplied rule expressions against it, and posts Slack
notifications.

Python values flowing through the handler are modelled by `JVal` (parsed JSON).
External collaborators are parameters:
  * `fetch`  models S3 get_object + gzip + json.loads (line 111-114),
  * `unquote` models urllib.parse.unquote_plus (line 106),
  * `ev`     models Python `eval(rule, {}, {"event": flat_event})` (lines 145, 154),
  * posting to Slack is modelled by accumulating `Notification` values.
Exceptions are modelled with `Except Err` / an `Option Err` component; a Python
`dict` is an association list with unique keys (assignment `d[k] = v` keeps the
position of an existing key, else appends).
-/

/-- Parsed JSON / Python value: dict, list, str, int, bool, None. -/
inductive JVal where
  | obj (fields : List (String × JVal))
  | arr (elems : List JVal)
  | str (s : String)
  | num (n : Int)
  | bool (b : Bool)
  | null

/-- Error values raised by the modelled Python code (exception rendered as text). -/
abbrev Err := String

/-- Python dict assignment `out[k] = v`: overwrite in place if the key exists,
else append at the end (insertion order preserved). -/
def dictAssign (out : List (String × JVal)) (k : String) (v : JVal) :
    List (String × JVal) :=
  if out.any (fun p => p.1 = k) then
    out.map (fun p => if p.1 = k then (k, v) else p)
  else
    out ++ [(k, v)]

/-- Python dict lookup in an association list (keys are unique in a dict, so the
first occurrence is the value). -/
def lookupKey (k : String) : List (String × JVal) → Option JVal
  | [] => none
  | (a, v) :: rest => if a = k then some v else lookupKey k rest

/-- Python subscript `v[k]` with a string key: KeyError on a missing dict key,
TypeError on non-dict values (main.py accesses like `record["s3"]`). -/
def getItem (v : JVal) (k : String) : Except Err JVal :=
  match v with
  | .obj kvs =>
    match lookupKey k kvs with
    | some x => .ok x
    | none => .error ("KeyError: " ++ k)
  | .arr _ => .error ("TypeError: list indices must be integers, got key " ++ k)
  | _ => .error ("TypeError: object is not subscriptable, key " ++ k)

/-- Model of Python `name[:-1]`: drop the last character of the string
(used at main.py line 210, `out[name[:-1]] = x`). -/
def dropLastChar (s : String) : String := ⟨s.data.dropLast⟩

mutual

/-- Inner `flatten(x, name)` of main.py lines 200-210, with the enclosing `out`
dict threaded explicitly: dicts recurse per key with `name + a + "."`, lists
recurse per element with `name + str(i) + "."`, any other value is written to
`out` under `name[:-1]`. -/
def flatten : JVal → String → List (String × JVal) → List (String × JVal)
  | .obj kvs, name, out => flattenObj kvs name out
  | .arr xs, name, out => flattenArr xs 0 name out
  | x, name, out => dictAssign out (dropLastChar name) x

/-- Dict branch of `flatten`: `for a in x: flatten(x[a], name + a + ".")`. -/
def flattenObj : List (String × JVal) → String → List (String × JVal) →
    List (String × JVal)
  | [], _, out => out
  | (a, v) :: rest, name, out => flattenObj rest name (flatten v (name ++ a ++ ".") out)

/-- List branch of `flatten`: `for a in x: flatten(a, name + str(i) + "."); i += 1`. -/
def flattenArr : List JVal → Nat → String → List (String × JVal) →
    List (String × JVal)
  | [], _, _, out => out
  | x :: rest, i, name, out => flattenArr rest (i + 1) name (flatten x (name ++ Nat.repr i ++ ".") out)

end

/-- `flatten_json(y)` of main.py lines 197-213: flatten starting from the empty
path and an empty output dict. -/
def flatten_json (y : JVal) : List (String × JVal) := flatten y "" []

/-- Model of Python `eval(rule, {}, {"event": flat_event})`: the interpreter is
external, so rule evaluation is an oracle from the rule text and the flattened
event to either a value or a raised exception. -/
abbrev EvalFn := String → List (String × JVal) → Except Err JVal

/-- Python `x is True`: identity with the `True` object. -/
def isTrueVal : JVal → Bool
  | .bool b => b
  | _ => false

/-- One entry of the `errors` list built in `should_message_be_processed`:
`{"error": e, "rule": rule}` (main.py lines 150 and 159). -/
structure RuleError where
  error : Err
  rule : String

/-- `ProcessingResult` of main.py lines 126-128. -/
structure ProcessingResult where
  should_be_processed : Bool
  errors : List RuleError

/-- First loop of `should_message_be_processed` (main.py lines 143-150):
on the first ignore rule evaluating to `True` return `ProcessingResult(False, errors)`
(`Sum.inl`), a raising rule appends to `errors` and evaluation continues; falling
off the loop yields the accumulated errors (`Sum.inr`). -/
def ignoreLoop (ev : EvalFn) (flat : List (String × JVal)) :
    List String → List RuleError → ProcessingResult ⊕ List RuleError
  | [], errors => .inr errors
  | ignore_rule :: rest, errors =>
    match ev ignore_rule flat with
    | .ok v =>
      if isTrueVal v then .inl ⟨false, errors⟩ else ignoreLoop ev flat rest errors
    | .error e => ignoreLoop ev flat rest (errors ++ [⟨e, ignore_rule⟩])

/-- Second loop of `should_message_be_processed` (main.py lines 152-159) plus the
final return (line 162): first rule evaluating to `True` returns
`ProcessingResult(True, errors)`, raising rules append and continue, exhaustion
returns `ProcessingResult(False, errors)`. -/
def rulesLoop (ev : EvalFn) (flat : List (String × JVal)) :
    List String → List RuleError → ProcessingResult
  | [], errors => ⟨false, errors⟩
  | rule :: rest, errors =>
    match ev rule flat with
    | .ok v =>
      if isTrueVal v then ⟨true, errors⟩ else rulesLoop ev flat rest errors
    | .error e => rulesLoop ev flat rest (errors ++ [⟨e, rule⟩])

/-- `should_message_be_processed` (main.py lines 131-162). It first flattens the
event, then reads `event["userIdentity"]` and `event["eventName"]` (either
lookup may raise KeyError/TypeError, modelled by `Except`), then runs the two
rule loops starting from an empty error list. -/
def should_message_be_processed (ev : EvalFn) (event : JVal)
    (rules ignore_rules : List String) : Except Err ProcessingResult :=
  let flat_event := flatten_json event
  match getItem event "userIdentity" with
  | .error e => .error e
  | .ok _user =>
  match getItem event "eventName" with
  | .error e => .error e
  | .ok _event_name =>
  match ignoreLoop ev flat_event ignore_rules [] with
  | .inl res => .ok res
  | .inr errors => .ok (rulesLoop ev flat_event rules errors)

/-- One Slack post (`post_message` call), tagged by which formatter built it:
`event_to_slack_message`, `message_for_rule_evaluation_error_notification`, or
`message_for_slack_error_notification`. -/
inductive Notification where
  | eventMsg (event : JVal) (source_file : JVal) (account_id : JVal)
  | ruleErrorMsg (error : Err) (object_key : String) (rule : String) (account_id : JVal)
  | slackError (error : Err) (batch : JVal)

/-- List-of-chars test: `l` begins with `pat`. -/
def startsWithList : List Char → List Char → Bool
  | [], _ => true
  | _ :: _, [] => false
  | a :: as, b :: bs => a == b && startsWithList as bs

/-- Substring occurrence on char lists (Python `needle in hay` for strings). -/
def containsChars (needle : List Char) : List Char → Bool
  | [] => needle.isEmpty
  | c :: rest => startsWithList needle (c :: rest) || containsChars needle rest

/-- Python `needle in hay` on strings: substring test. -/
def strHasSub (hay needle : String) : Bool := containsChars needle.data hay.data

/-- Python `s.startswith(pat)`. -/
def pyStartsWith (s pat : String) : Bool := startsWithList pat.data s.data

/-- Python `s == v` between a str and an arbitrary value (False on type mismatch). -/
def eqStrVal (s : String) : JVal → Bool
  | .str t => s == t
  | _ => false

/-- Python membership `needle in v`: key lookup on dicts, element equality on
lists, substring on strings, TypeError elsewhere. -/
def pyIn (needle : String) : JVal → Except Err Bool
  | .obj kvs => .ok (kvs.any (fun p => p.1 == needle))
  | .arr xs => .ok (xs.any (eqStrVal needle))
  | .str s => .ok (strHasSub s needle)
  | _ => .error "TypeError: argument is not iterable"

/-- The account-id conditional expression used at main.py lines 74 and 173:
`ui["accountId"] if "accountId" in ui else ""`. -/
def accountIdOf (ui : JVal) : Except Err JVal := do
  let hasAcc ← pyIn "accountId" ui
  if hasAcc then getItem ui "accountId" else .ok (.str "")

/-- The AccessDenied test of main.py line 189:
`"errorCode" in event and "AccessDenied" in event["errorCode"]`
(the branch only logs, but the test itself may raise). -/
def accessDeniedCheck (event : JVal) : Except Err Bool := do
  let hasCode ← pyIn "errorCode" event
  if hasCode then
    let code ← getItem event "errorCode"
    pyIn "AccessDenied" code
  else .ok false

/-- `handle_event` (main.py lines 165-193), with posted messages accumulated in
order and an escaping exception as `some err` (messages already posted before
the raise stay posted). -/
def handle_event (ev : EvalFn) (rule_evaluation_errors_to_slack : Bool)
    (event : JVal) (source_file_object_key : String)
    (rules ignore_rules : List String) : List Notification × Option Err :=
  match should_message_be_processed ev event rules ignore_rules with
  | .error e => ([], some e)
  | .ok result =>
  match getItem event "userIdentity" with
  | .error e => ([], some e)
  | .ok ui =>
  match accountIdOf ui with
  | .error e => ([], some e)
  | .ok account_id =>
    let errNotifs :=
      if rule_evaluation_errors_to_slack then
        result.errors.map (fun er =>
          Notification.ruleErrorMsg er.error source_file_object_key er.rule account_id)
      else []
    if ¬ result.should_be_processed then (errNotifs, none)
    else
      match accessDeniedCheck event with
      | .error e => (errNotifs, some e)
      | .ok _ =>
        (errNotifs ++ [.eventMsg event (.str source_file_object_key) account_id], none)

/-- `handle_removed_object_record` (main.py lines 70-80): compute the account id
from `record["userIdentity"]`, then post the single removal message built from
the record and `record["s3"]["object"]["key"]`. -/
def handle_removed_object_record (record : JVal) : List Notification × Option Err :=
  match (do
      let ui ← getItem record "userIdentity"
      let account_id ← accountIdOf ui
      let s3v ← getItem record "s3"
      let ov ← getItem s3v "object"
      let keyv ← getItem ov "key"
      pure (account_id, keyv) : Except Err (JVal × JVal)) with
  | .error e => ([], some e)
  | .ok (account_id, keyv) => ([.eventMsg record keyv account_id], none)

/-- `{"key": ..., "events": ...}` built at main.py lines 115-118. -/
structure CloudtrailLogRecord where
  key : String
  events : JVal

/-- Python str requirement of `urllib.parse.unquote_plus` (TypeError otherwise). -/
def asPyStr : JVal → Except Err String
  | .str s => .ok s
  | _ => .error "TypeError: expected str"

/-- `get_cloudtrail_log_records` (main.py lines 98-123). `fetch` models
`s3.get_object` + gzip decompression + `json.loads` (lines 111-114, any failure
in that block is re-raised after logging, hence plain propagation); `unquote`
models `urllib.parse.unquote_plus`. Digest keys short-circuit to `none` before
any fetch. -/
def get_cloudtrail_log_records (fetch : JVal → String → Except Err JVal)
    (unquote : String → String) (record : JVal) :
    Except Err (Option CloudtrailLogRecord) := do
  let hasS3 ← pyIn "s3" record
  if ¬ hasS3 then
    .error "AssertionError: recieved record does not contain s3 section"
  else do
    let s3v ← getItem record "s3"
    let bucket ← do
      let b ← getItem s3v "bucket"
      getItem b "name"
    let rawKey ← do
      let ov ← getItem s3v "object"
      getItem ov "key"
    let key := unquote (← asPyStr rawKey)
    if strHasSub key "Digest" then
      pure none
    else do
      let content ← fetch bucket key
      let events ← getItem content "Records"
      pure (some ⟨key, events⟩)

/-- Python iteration `for x in v`: list elements, dict keys, string characters,
TypeError elsewhere. -/
def iterElems : JVal → Except Err (List JVal)
  | .arr xs => .ok xs
  | .obj kvs => .ok (kvs.map (fun p => .str p.1))
  | .str s => .ok (s.data.map (fun c => .str (String.mk [c])))
  | _ => .error "TypeError: object is not iterable"

/-- The `for cloudtrail_log_event in cloudtrail_log_record["events"]` loop of
`handle_created_object_record` (main.py lines 89-95): sub-events are handled in
order; an exception stops the loop but keeps the messages already posted. -/
def handleEvents (ev : EvalFn) (toggle : Bool) (key : String)
    (rules ignore_rules : List String) : List JVal → List Notification × Option Err
  | [] => ([], none)
  | e :: rest =>
    match handle_event ev toggle e key rules ignore_rules with
    | (msgs, some err) => (msgs, some err)
    | (msgs, none) =>
      let step := handleEvents ev toggle key rules ignore_rules rest
      (msgs ++ step.1, step.2)

/-- `handle_created_object_record` (main.py lines 83-95): fetch and decode the
object, skip silently when the retriever returned `None`, else handle each
decoded sub-event. -/
def handle_created_object_record (fetch : JVal → String → Except Err JVal)
    (unquote : String → String) (ev : EvalFn) (toggle : Bool)
    (rules ignore_rules : List String) (record : JVal) :
    List Notification × Option Err :=
  match get_cloudtrail_log_records fetch unquote record with
  | .error e => ([], some e)
  | .ok none => ([], none)
  | .ok (some clr) =>
    match iterElems clr.events with
    | .error e => ([], some e)
    | .ok evs => handleEvents ev toggle clr.key rules ignore_rules evs

/-- Body of the `for record in s3_notification_event["Records"]` loop of
`lambda_handler` (main.py lines 43-59) for one record: read `eventName`,
evaluate the digest-logging test (line 45, whose subscripts may raise), then
dispatch on the `eventName` prefix; other prefixes are ignored. -/
def processRecord (fetch : JVal → String → Except Err JVal)
    (unquote : String → String) (ev : EvalFn) (toggle : Bool)
    (rules ignore_rules : List String) (record : JVal) :
    List Notification × Option Err :=
  match getItem record "eventName" with
  | .error e => ([], some e)
  | .ok event_name =>
  match (do
      let s3v ← getItem record "s3"
      let ov ← getItem s3v "object"
      let keyv ← getItem ov "key"
      pyIn "Digest" keyv) with
  | .error e => ([], some e)
  | .ok _ =>
  match event_name with
  | .str s =>
    if pyStartsWith s "ObjectRemoved" then handle_removed_object_record record
    else if pyStartsWith s "ObjectCreated" then
      handle_created_object_record fetch unquote ev toggle rules ignore_rules record
    else ([], none)
  | _ => ([], some "AttributeError: startswith")

/-- The whole record loop of `lambda_handler`: records in order, an exception
stops the loop, messages already posted stay posted. -/
def processRecords (fetch : JVal → String → Except Err JVal)
    (unquote : String → String) (ev : EvalFn) (toggle : Bool)
    (rules ignore_rules : List String) : List JVal → List Notification × Option Err
  | [] => ([], none)
  | r :: rest =>
    match processRecord fetch unquote ev toggle rules ignore_rules r with
    | (msgs, some err) => (msgs, some err)
    | (msgs, none) =>
      let step := processRecords fetch unquote ev toggle rules ignore_rules rest
      (msgs ++ step.1, step.2)

/-- Body of the try block of `lambda_handler` (main.py lines 42-59): read
`s3_notification_event["Records"]`, iterate it, and run the record loop;
messages posted before an escaping exception stay posted. -/
def runRecords (fetch : JVal → String → Except Err JVal)
    (unquote : String → String) (ev : EvalFn) (toggle : Bool)
    (rules ignore_rules : List String) (s3_notification_event : JVal) :
    List Notification × Option Err :=
  match (do
      let recs ← getItem s3_notification_event "Records"
      iterElems recs) with
  | .error e => ([], some e)
  | .ok records => processRecords fetch unquote ev toggle rules ignore_rules records

/-- `lambda_handler` (main.py lines 40-67): run the record loop under the single
try; any escaping exception posts one `message_for_slack_error_notification`
carrying the whole triggering batch; the handler always returns 200. The
configuration object `cfg` is modelled by the `toggle`/`rules`/`ignore_rules`
parameters. -/
def lambda_handler (fetch : JVal → String → Except Err JVal)
    (unquote : String → String) (ev : EvalFn) (toggle : Bool)
    (rules ignore_rules : List String) (s3_notification_event : JVal) :
    Nat × List Notification :=
  match runRecords fetch unquote ev toggle rules ignore_rules s3_notification_event with
  | (sent, some e) => (200, sent ++ [.slackError e s3_notification_event])
  | (sent, none) => (200, sent)

/-- Specification helper: the boolean outcome the loops test, `eval(r, ...) is True`
(False both for a non-True value and for a raising rule). -/
def evalsTrue (ev : EvalFn) (flat : List (String × JVal)) (r : String) : Bool :=
  match ev r flat with
  | .ok v => isTrueVal v
  | .error _ => false

/-- Specification helper: the error records collected while scanning `l`, in list
order, one per raising rule. -/
def errsOf (ev : EvalFn) (flat : List (String × JVal)) (l : List String) : List RuleError :=
  l.filterMap (fun r =>
    match ev r flat with
    | .error e => some ⟨e, r⟩
    | .ok _ => none)

/-- Concrete evaluation oracle used by witnesses: rule "T" evaluates to True,
rule "E" raises, anything else evaluates to None. -/
def evStub : EvalFn := fun r _ =>
  if r = "T" then .ok (.bool true)
  else if r = "E" then .error "boom"
  else .ok .null

/-- Concrete event used by witnesses. -/
def eventStub : JVal :=
  .obj [("userIdentity", .obj [("accountId", .str "123")]), ("eventName", .str "X")]

/-- A value that is neither a dict nor a list: flatten records it as a leaf. -/
def isScalar : JVal → Bool
  | .obj _ => false
  | .arr _ => false
  | _ => true

/-- Classifier: notification built by `message_for_slack_error_notification`
(only posted by the top-level except handler). -/
def isTopErrNotif : Notification → Bool
  | .slackError _ _ => true
  | _ => false

/-- Classifier: event message built by `event_to_slack_message`. -/
def isEventNotif : Notification → Bool
  | .eventMsg _ _ _ => true
  | _ => false

/-- Classifier: notification built by `message_for_rule_evaluation_error_notification`. -/
def isRuleErrNotif : Notification → Bool
  | .ruleErrorMsg _ _ _ _ => true
  | _ => false

/-- Identity stub for `urllib.parse.unquote_plus`, used by concrete witnesses. -/
def idString : String → String := fun s => s

/-- Constant fetch stub used by concrete witnesses: one batch with one sub-event. -/
def subEventC : JVal := .obj [("userIdentity", .obj []), ("eventName", .str "E1")]

def fetchC : JVal → String → Except Err JVal :=
  fun _ _ => .ok (.obj [("Records", .arr [subEventC])])

/-- Account-id argument a notification was posted with. -/
def notifAccount : Notification → JVal
  | .eventMsg _ _ a => a
  | .ruleErrorMsg _ _ _ a => a
  | .slackError _ _ => .null

/-- Concrete digest record used by the C6 witness. -/
def digestRecordC : JVal :=
  .obj [("eventName", .str "ObjectCreated:Put"),
        ("s3", .obj [("bucket", .obj [("name", .str "b")]),
                     ("object", .obj [("key", .str "AWSLogs-Digest-1.gz")])])]

/-- Concrete removal record used by the C9 witness. -/
def removalRecordC : JVal :=
  .obj [("eventName", .str "ObjectRemoved:Delete"),
        ("userIdentity", .obj [("accountId", .str "42")]),
        ("s3", .obj [("bucket", .obj [("name", .str "b")]),
                     ("object", .obj [("key", .str "k.gz")])])]

/-- Concrete created-object record used by the C7 counterexample. -/
def createRecordC : JVal :=
  .obj [("eventName", .str "ObjectCreated:Put"),
        ("s3", .obj [("bucket", .obj [("name", .str "b")]),
                     ("object", .obj [("key", .str "k")])])]

/-- One step of a leaf path: a dict key or a list index. -/
inductive Seg where
  | key (a : String)
  | idx (i : Nat)

/-- Characters `flatten` appends for one segment (before its "." separator):
the key itself, or `str(i)` for an index. -/
def segChars : Seg → List Char
  | .key a => a.data
  | .idx i => (Nat.repr i).data

/-- Characters of the `name` accumulator after descending a path: every segment
followed by the "." separator. -/
def pathChars : List Seg → List Char
  | [] => []
  | s :: rest => segChars s ++ '.' :: pathChars rest

/-- Flattened-dict key of a leaf at path `p`: the name with its trailing
separator stripped (`name[:-1]`). -/
def keyOf (p : List Seg) : String := ⟨(pathChars p).dropLast⟩

mutual

/-- Leaves of a nested value below path `p`, in depth-first traversal order,
with the full segment path of each. -/
def leavesAux : JVal → List Seg → List (List Seg × JVal)
  | .obj kvs, p => leavesObj kvs p
  | .arr xs, p => leavesArr xs 0 p
  | x, p => [(p, x)]

def leavesObj : List (String × JVal) → List Seg → List (List Seg × JVal)
  | [], _ => []
  | (a, v) :: rest, p => leavesAux v (p ++ [.key a]) ++ leavesObj rest p

def leavesArr : List JVal → Nat → List Seg → List (List Seg × JVal)
  | [], _, _ => []
  | x :: rest, i, p => leavesAux x (p ++ [.idx i]) ++ leavesArr rest (i + 1) p

end

/-- Leaf positions of a nested value, with their segment paths. -/
def leaves (y : JVal) : List (List Seg × JVal) := leavesAux y []

/-- One `out[name[:-1]] = x` write of `flatten`, at the leaf's path. -/
def assignStep (o : List (String × JVal)) (l : List Seg × JVal) : List (String × JVal) :=
  dictAssign o (keyOf l.1) l.2

/-- The string contains no "." separator character. -/
def dotFreeStr (a : String) : Bool := a.data.all (fun c => c != '.')

/-- Pairwise-distinct strings (what Python dict keys satisfy by construction). -/
def noDupStr : List String → Bool
  | [] => true
  | a :: rest => rest.all (fun b => a != b) && noDupStr rest

mutual

/-- Every dict node has pairwise-distinct keys — true of any value parsed from
JSON into Python dicts, which cannot hold duplicate keys. -/
def pyDict : JVal → Bool
  | .obj kvs => noDupStr (kvs.map Prod.fst) && pyDictList kvs
  | .arr xs => pyDictArr xs
  | _ => true

def pyDictList : List (String × JVal) → Bool
  | [] => true
  | (_, v) :: rest => pyDict v && pyDictList rest

def pyDictArr : List JVal → Bool
  | [] => true
  | x :: rest => pyDict x && pyDictArr rest

end

mutual

/-- No dict key anywhere in the value contains the "." separator. -/
def dotFreeKeys : JVal → Bool
  | .obj kvs => dotFreeKeysList kvs
  | .arr xs => dotFreeKeysArr xs
  | _ => true

def dotFreeKeysList : List (String × JVal) → Bool
  | [] => true
  | (a, v) :: rest => dotFreeStr a && dotFreeKeys v && dotFreeKeysList rest

def dotFreeKeysArr : List JVal → Bool
  | [] => true
  | x :: rest => dotFreeKeys x && dotFreeKeysArr rest

end

/-- Base-10 digits of a number, most significant first. -/
def decDigits (n : Nat) : List Nat :=
  if _h : n < 10 then [n] else decDigits (n / 10) ++ [n % 10]
termination_by n
decreasing_by exact Nat.div_lt_self (by omega) (by omega)

/-- Recombination of `decDigits`. -/
def ofDecDigits (l : List Nat) : Nat := l.foldl (fun a d => 10 * a + d) 0

/-- Concrete input refuting C3 as stated: a well-formed dict (distinct keys)
whose key "a.b" contains the separator. -/
def collideY : JVal := .obj [("a", .obj [("b", .num 1)]), ("a.b", .num 2)]

theorem errsOf_nil_of_ok (ev : EvalFn) (flat : List (String × JVal)) :
    ∀ l : List String, (∀ r ∈ l, ∃ v, ev r flat = .ok v) → errsOf ev flat l = [] := by
  intro l h
  induction l with
  | nil => rfl
  | cons r rest ih =>
    obtain ⟨v, hv⟩ := h r (by simp)
    simp only [errsOf, List.filterMap_cons, hv]
    exact ih (fun r' hr' => h r' (by simp [hr']))

theorem ignoreLoop_no_true (ev : EvalFn) (flat : List (String × JVal)) :
    ∀ (l : List String) (errs : List RuleError),
      (∀ r ∈ l, evalsTrue ev flat r = false) →
      ignoreLoop ev flat l errs = .inr (errs ++ errsOf ev flat l) := by
  intro l
  induction l with
  | nil => intro errs _; simp [ignoreLoop, errsOf]
  | cons r rest ih =>
    intro errs h
    have hr := h r (by simp)
    cases hv : ev r flat with
    | ok v =>
      have htv : isTrueVal v = false := by simpa [evalsTrue, hv] using hr
      simp only [ignoreLoop, hv, htv, if_false, Bool.false_eq_true]
      rw [ih errs (fun r' hr' => h r' (by simp [hr']))]
      simp [errsOf, List.filterMap_cons, hv]
    | error e =>
      simp only [ignoreLoop, hv]
      rw [ih (errs ++ [RuleError.mk e r]) (fun r' hr' => h r' (by simp [hr']))]
      simp [errsOf, List.filterMap_cons, hv]

theorem ignoreLoop_first_true (ev : EvalFn) (flat : List (String × JVal))
    (r : String) (post : List String) (hr : evalsTrue ev flat r = true) :
    ∀ (pre : List String) (errs : List RuleError),
      (∀ r' ∈ pre, evalsTrue ev flat r' = false) →
      ignoreLoop ev flat (pre ++ r :: post) errs = .inl ⟨false, errs ++ errsOf ev flat pre⟩ := by
  intro pre
  induction pre with
  | nil =>
    intro errs _
    cases hv : ev r flat with
    | ok v =>
      have htv : isTrueVal v = true := by simpa [evalsTrue, hv] using hr
      simp [ignoreLoop, hv, htv, errsOf]
    | error e => simp [evalsTrue, hv] at hr
  | cons p ps ih =>
    intro errs h
    have hp := h p (by simp)
    cases hv : ev p flat with
    | ok v =>
      have htv : isTrueVal v = false := by simpa [evalsTrue, hv] using hp
      simp only [List.cons_append, List.append_eq, ignoreLoop, hv, htv, if_false, Bool.false_eq_true]
      rw [ih errs (fun r' hr' => h r' (by simp [hr']))]
      simp [errsOf, List.filterMap_cons, hv]
    | error e =>
      simp only [List.cons_append, List.append_eq, ignoreLoop, hv]
      rw [ih (errs ++ [RuleError.mk e p]) (fun r' hr' => h r' (by simp [hr']))]
      simp [errsOf, List.filterMap_cons, hv]

theorem rulesLoop_no_true (ev : EvalFn) (flat : List (String × JVal)) :
    ∀ (l : List String) (errs : List RuleError),
      (∀ r ∈ l, evalsTrue ev flat r = false) →
      rulesLoop ev flat l errs = ⟨false, errs ++ errsOf ev flat l⟩ := by
  intro l
  induction l with
  | nil => intro errs _; simp [rulesLoop, errsOf]
  | cons r rest ih =>
    intro errs h
    have hr := h r (by simp)
    cases hv : ev r flat with
    | ok v =>
      have htv : isTrueVal v = false := by simpa [evalsTrue, hv] using hr
      simp only [rulesLoop, hv, htv, if_false, Bool.false_eq_true]
      rw [ih errs (fun r' hr' => h r' (by simp [hr']))]
      simp [errsOf, List.filterMap_cons, hv]
    | error e =>
      simp only [rulesLoop, hv]
      rw [ih (errs ++ [RuleError.mk e r]) (fun r' hr' => h r' (by simp [hr']))]
      simp [errsOf, List.filterMap_cons, hv]

theorem rulesLoop_first_true (ev : EvalFn) (flat : List (String × JVal))
    (r : String) (post : List String) (hr : evalsTrue ev flat r = true) :
    ∀ (pre : List String) (errs : List RuleError),
      (∀ r' ∈ pre, evalsTrue ev flat r' = false) →
      rulesLoop ev flat (pre ++ r :: post) errs = ⟨true, errs ++ errsOf ev flat pre⟩ := by
  intro pre
  induction pre with
  | nil =>
    intro errs _
    cases hv : ev r flat with
    | ok v =>
      have htv : isTrueVal v = true := by simpa [evalsTrue, hv] using hr
      simp [rulesLoop, hv, htv, errsOf]
    | error e => simp [evalsTrue, hv] at hr
  | cons p ps ih =>
    intro errs h
    have hp := h p (by simp)
    cases hv : ev p flat with
    | ok v =>
      have htv : isTrueVal v = false := by simpa [evalsTrue, hv] using hp
      simp only [List.cons_append, List.append_eq, rulesLoop, hv, htv, if_false, Bool.false_eq_true]
      rw [ih errs (fun r' hr' => h r' (by simp [hr']))]
      simp [errsOf, List.filterMap_cons, hv]
    | error e =>
      simp only [List.cons_append, List.append_eq, rulesLoop, hv]
      rw [ih (errs ++ [RuleError.mk e p]) (fun r' hr' => h r' (by simp [hr']))]
      simp [errsOf, List.filterMap_cons, hv]

theorem ignoreLoop_shift (ev : EvalFn) (flat : List (String × JVal)) :
    ∀ (l : List String) (errs : List RuleError),
      ignoreLoop ev flat l errs =
        match ignoreLoop ev flat l [] with
        | .inl res => .inl ⟨res.1, errs ++ res.2⟩
        | .inr es => .inr (errs ++ es) := by
  intro l
  induction l with
  | nil => intro errs; simp [ignoreLoop]
  | cons r rest ih =>
    intro errs
    cases hv : ev r flat with
    | ok v =>
      by_cases htv : isTrueVal v
      · simp [ignoreLoop, hv, htv]
      · simp only [ignoreLoop, hv, htv, if_false, Bool.false_eq_true]
        rw [ih errs]
    | error e =>
      simp only [ignoreLoop, hv, List.nil_append]
      rw [ih (errs ++ [RuleError.mk e r]), ih [RuleError.mk e r]]
      cases ignoreLoop ev flat rest [] with
      | inl res => simp
      | inr es => simp

theorem rulesLoop_shift (ev : EvalFn) (flat : List (String × JVal)) :
    ∀ (l : List String) (errs : List RuleError),
      rulesLoop ev flat l errs =
        ⟨(rulesLoop ev flat l []).1, errs ++ (rulesLoop ev flat l []).2⟩ := by
  intro l
  induction l with
  | nil => intro errs; simp [rulesLoop]
  | cons r rest ih =>
    intro errs
    cases hv : ev r flat with
    | ok v =>
      by_cases htv : isTrueVal v
      · simp [rulesLoop, hv, htv]
      · simp only [rulesLoop, hv, htv, if_false, Bool.false_eq_true]
        rw [ih errs]
    | error e =>
      simp only [rulesLoop, hv]
      rw [ih (errs ++ [RuleError.mk e r])]
      simp only [List.nil_append]
      rw [ih [RuleError.mk e r]]
      simp

/-- C1: for every flattened event and ordered rule lists, the evaluator scans the
ignore rules in list order and returns "do not process" immediately at the first
one evaluating to boolean True (later ignore rules and all match rules are
irrelevant: the result does not depend on `post` or `rules`); otherwise it scans
the match rules in order and returns "process" at the first True; if no rule in
either list evaluates to True it returns "do not process". -/
theorem should_message_order (ev : EvalFn) (event u en : JVal)
    (hu : getItem event "userIdentity" = .ok u)
    (hen : getItem event "eventName" = .ok en) :
    (∀ (pre : List String) (r : String) (post rules : List String),
        (∀ r' ∈ pre, evalsTrue ev (flatten_json event) r' = false) →
        evalsTrue ev (flatten_json event) r = true →
        should_message_be_processed ev event rules (pre ++ r :: post) =
          .ok ⟨false, errsOf ev (flatten_json event) pre⟩) ∧
    (∀ (ig pre : List String) (r : String) (post : List String),
        (∀ r' ∈ ig, evalsTrue ev (flatten_json event) r' = false) →
        (∀ r' ∈ pre, evalsTrue ev (flatten_json event) r' = false) →
        evalsTrue ev (flatten_json event) r = true →
        should_message_be_processed ev event (pre ++ r :: post) ig =
          .ok ⟨true, errsOf ev (flatten_json event) (ig ++ pre)⟩) ∧
    (∀ (ig rules : List String),
        (∀ r' ∈ ig ++ rules, evalsTrue ev (flatten_json event) r' = false) →
        should_message_be_processed ev event rules ig =
          .ok ⟨false, errsOf ev (flatten_json event) (ig ++ rules)⟩) := by
  refine ⟨?_, ?_, ?_⟩
  · intro pre r post rules hpre hr
    simp only [should_message_be_processed, hu, hen]
    rw [ignoreLoop_first_true ev _ r post hr pre [] hpre]
    simp
  · intro ig pre r post hig hpre hr
    simp only [should_message_be_processed, hu, hen]
    rw [ignoreLoop_no_true ev _ ig [] hig]
    simp only [List.nil_append]
    rw [rulesLoop_first_true ev _ r post hr pre (errsOf ev (flatten_json event) ig) hpre]
    simp [errsOf, List.filterMap_append]
  · intro ig rules h
    simp only [should_message_be_processed, hu, hen]
    rw [ignoreLoop_no_true ev _ ig [] (fun r hr => h r (by simp [hr]))]
    simp only [List.nil_append]
    rw [rulesLoop_no_true ev _ rules _ (fun r hr => h r (by simp [hr]))]
    simp [errsOf, List.filterMap_append]

/-- Witness for C1: with ignore rules ["F","E","T","T2"] (rule "E" raising,
rule "T" the first True), the event is rejected with exactly the error from
"E" collected, whatever the match rules. -/
theorem should_message_order_witness :
    getItem eventStub "userIdentity" = .ok (.obj [("accountId", .str "123")]) ∧
    should_message_be_processed evStub eventStub ["T"] ["F", "E", "T", "T2"] =
      .ok ⟨false, [⟨"boom", "E"⟩]⟩ := by
  constructor
  · rfl
  · have h := (should_message_order evStub eventStub (.obj [("accountId", .str "123")])
      (.str "X") rfl rfl).1 ["F", "E"] "T" ["T2"] ["T"] (by decide) (by decide)
    exact h.trans (by rfl)

/-- C4: a raising rule never aborts the scan: a raising ignore rule contributes
its (exception, rule text) record at its position and the scan continues exactly
as without it; a raising match rule likewise (given the ignore list falls
through); and when no rule evaluates to True and none raises the result is
"do not process" with an empty error list. -/
theorem should_message_error_collection (ev : EvalFn) (event u en : JVal)
    (hu : getItem event "userIdentity" = .ok u)
    (hen : getItem event "eventName" = .ok en) :
    (∀ (r : String) (rest rules : List String) (e : Err),
        ev r (flatten_json event) = .error e →
        should_message_be_processed ev event rules (r :: rest) =
          Except.map (fun res : ProcessingResult => ⟨res.1, ⟨e, r⟩ :: res.2⟩)
            (should_message_be_processed ev event rules rest)) ∧
    (∀ (ig : List String) (r : String) (rest : List String) (e : Err),
        (∀ r' ∈ ig, evalsTrue ev (flatten_json event) r' = false) →
        ev r (flatten_json event) = .error e →
        should_message_be_processed ev event (r :: rest) ig =
          .ok ⟨(rulesLoop ev (flatten_json event) rest []).1,
               errsOf ev (flatten_json event) ig ++ ⟨e, r⟩ ::
                 (rulesLoop ev (flatten_json event) rest []).2⟩ ∧
        should_message_be_processed ev event rest ig =
          .ok ⟨(rulesLoop ev (flatten_json event) rest []).1,
               errsOf ev (flatten_json event) ig ++
                 (rulesLoop ev (flatten_json event) rest []).2⟩) ∧
    (∀ (ig rules : List String),
        (∀ r ∈ ig ++ rules, ∃ v, ev r (flatten_json event) = .ok v ∧ isTrueVal v = false) →
        should_message_be_processed ev event rules ig = .ok ⟨false, []⟩) := by
  refine ⟨?_, ?_, ?_⟩
  · intro r rest rules e he
    simp only [should_message_be_processed, hu, hen]
    have step : ignoreLoop ev (flatten_json event) (r :: rest) [] =
        ignoreLoop ev (flatten_json event) rest [RuleError.mk e r] := by
      simp [ignoreLoop, he]
    rw [step, ignoreLoop_shift ev (flatten_json event) rest [RuleError.mk e r]]
    cases hil : ignoreLoop ev (flatten_json event) rest [] with
    | inl res => simp [Except.map]
    | inr es =>
      have h1 := rulesLoop_shift ev (flatten_json event) rules (RuleError.mk e r :: es)
      have h2 := rulesLoop_shift ev (flatten_json event) rules es
      simp [Except.map, h1, h2]
  · intro ig r rest e hig he
    have hinr := ignoreLoop_no_true ev (flatten_json event) ig [] hig
    constructor
    · simp only [should_message_be_processed, hu, hen]
      rw [hinr]
      simp only [List.nil_append]
      have step : rulesLoop ev (flatten_json event) (r :: rest)
          (errsOf ev (flatten_json event) ig) =
          rulesLoop ev (flatten_json event) rest
            (errsOf ev (flatten_json event) ig ++ [RuleError.mk e r]) := by
        simp [rulesLoop, he]
      rw [step, rulesLoop_shift ev (flatten_json event) rest
        (errsOf ev (flatten_json event) ig ++ [RuleError.mk e r])]
      simp
    · simp only [should_message_be_processed, hu, hen]
      rw [hinr]
      simp only [List.nil_append]
      rw [rulesLoop_shift ev (flatten_json event) rest (errsOf ev (flatten_json event) ig)]
  · intro ig rules h
    have hall : ∀ r ∈ ig ++ rules, evalsTrue ev (flatten_json event) r = false := by
      intro r hr
      obtain ⟨v, hv, htv⟩ := h r hr
      simp [evalsTrue, hv, htv]
    have hnil : errsOf ev (flatten_json event) (ig ++ rules) = [] :=
      errsOf_nil_of_ok _ _ _ (fun r hr => (h r hr).imp (fun v hv => hv.1))
    simp only [should_message_be_processed, hu, hen]
    rw [ignoreLoop_no_true ev _ ig [] (fun r hr => hall r (by simp [hr]))]
    simp only [List.nil_append]
    rw [rulesLoop_no_true ev _ rules _ (fun r hr => hall r (by simp [hr]))]
    have hsplit : errsOf ev (flatten_json event) ig ++
        errsOf ev (flatten_json event) rules = [] := by
      have hsum : errsOf ev (flatten_json event) (ig ++ rules) =
          errsOf ev (flatten_json event) ig ++ errsOf ev (flatten_json event) rules := by
        simp [errsOf, List.filterMap_append]
      rw [← hsum]
      exact hnil
    rw [hsplit]

/-- Witness for C4: the raising ignore rule "E" contributes its error and the
scan continues to the remaining ignore rule; with no rule True and no failures
the result is "do not process" with no errors. -/
theorem should_message_error_collection_witness :
    evStub "E" (flatten_json eventStub) = .error "boom" ∧
    should_message_be_processed evStub eventStub [] ["E", "F"] =
      .ok ⟨false, [⟨"boom", "E"⟩]⟩ ∧
    should_message_be_processed evStub eventStub ["F"] [] = .ok ⟨false, []⟩ := by
  refine ⟨by rfl, ?_, ?_⟩
  · have h := (should_message_error_collection evStub eventStub
      (.obj [("accountId", .str "123")]) (.str "X") rfl rfl).1 "E" ["F"] [] "boom" (by rfl)
    exact h.trans (by rfl)
  · exact (should_message_error_collection evStub eventStub
      (.obj [("accountId", .str "123")]) (.str "X") rfl rfl).2.2 [] ["F"]
      (by intro r hr; refine ⟨.null, ?_, rfl⟩; simp at hr; simp [hr, evStub])

theorem flattenObj_eq_foldl : ∀ (kvs : List (String × JVal)) (name : String)
    (out : List (String × JVal)),
    flattenObj kvs name out =
      kvs.foldl (fun o p => flatten p.2 (name ++ p.1 ++ ".") o) out := by
  intro kvs
  induction kvs with
  | nil => intro name out; rfl
  | cons p rest ih =>
    intro name out
    cases p with
    | mk a v => simp [flattenObj, List.foldl_cons, ih]

theorem flattenArr_eq_foldl : ∀ (xs : List JVal) (i : Nat) (name : String)
    (out : List (String × JVal)),
    flattenArr xs i name out =
      (List.enumFrom i xs).foldl (fun o p => flatten p.2 (name ++ Nat.repr p.1 ++ ".") o) out := by
  intro xs
  induction xs with
  | nil => intro i name out; rfl
  | cons x rest ih =>
    intro i name out
    simp [flattenArr, List.enumFrom, List.foldl_cons, ih]

/-- C2: `flatten_json` traverses depth-first: a dict recurses into each value in
order with the path extended by `key + "."`, a list recurses into each element
with the path extended by `str(index) + "."`, and any other value is recorded
under the path with its trailing separator stripped; in particular flattening
`{"a": [{"b": 1}, 2]}` gives exactly `{"a.0.b": 1, "a.1": 2}`. -/
theorem flatten_json_traversal :
    (∀ (kvs : List (String × JVal)) (name : String) (out : List (String × JVal)),
        flatten (.obj kvs) name out =
          kvs.foldl (fun o p => flatten p.2 (name ++ p.1 ++ ".") o) out) ∧
    (∀ (xs : List JVal) (name : String) (out : List (String × JVal)),
        flatten (.arr xs) name out =
          xs.enum.foldl (fun o p => flatten p.2 (name ++ Nat.repr p.1 ++ ".") o) out) ∧
    (∀ (x : JVal) (name : String) (out : List (String × JVal)),
        isScalar x = true → flatten x name out = dictAssign out (dropLastChar name) x) ∧
    flatten_json (.obj [("a", .arr [.obj [("b", .num 1)], .num 2])]) =
      [("a.0.b", .num 1), ("a.1", .num 2)] := by
  refine ⟨?_, ?_, ?_, by rfl⟩
  · intro kvs name out
    simpa [flatten] using flattenObj_eq_foldl kvs name out
  · intro xs name out
    simpa [flatten, List.enum] using flattenArr_eq_foldl xs 0 name out
  · intro x name out hx
    cases x <;> simp_all [flatten, isScalar]

/-- Witness for C2: the scalar clause applied at `None` under the path "q.". -/
theorem flatten_json_traversal_witness :
    isScalar .null = true ∧ flatten .null "q." [] = dictAssign [] (dropLastChar "q.") .null := by
  exact ⟨rfl, flatten_json_traversal.2.2.1 .null "q." [] rfl⟩

/-- Every message `handle_event` posts is either one rule-evaluation-error
notification for this object key or the event message for this event. -/
theorem mem_if_map {toggle : Bool} {errs : List RuleError} {key : String}
    {acct : JVal} {n : Notification}
    (hn : n ∈ (if toggle = true then
        errs.map (fun er => Notification.ruleErrorMsg er.error key er.rule acct)
      else [])) :
    ∃ er ∈ errs, n = Notification.ruleErrorMsg er.error key er.rule acct := by
  cases toggle
  · simp at hn
  · rcases List.mem_map.1 (by simpa using hn) with ⟨er, her, rfl⟩
    exact ⟨er, her, rfl⟩

theorem handle_event_shape (ev : EvalFn) (toggle : Bool) (event : JVal)
    (key : String) (rules ig : List String) :
    ∀ n ∈ (handle_event ev toggle event key rules ig).1,
      (∃ e rule acct, n = .ruleErrorMsg e key rule acct) ∨
      (∃ acct, n = .eventMsg event (.str key) acct) := by
  intro n hn
  unfold handle_event at hn
  cases hres : should_message_be_processed ev event rules ig with
  | error e => rw [hres] at hn; simp at hn
  | ok result =>
    rw [hres] at hn
    dsimp only at hn
    cases hui : getItem event "userIdentity" with
    | error e => rw [hui] at hn; simp at hn
    | ok ui =>
      rw [hui] at hn
      dsimp only at hn
      cases hacct : accountIdOf ui with
      | error e => rw [hacct] at hn; simp at hn
      | ok acct =>
        rw [hacct] at hn
        dsimp only at hn
        by_cases hp : result.should_be_processed
        · rw [if_neg (by simp [hp])] at hn
          cases hacc : accessDeniedCheck event with
          | error e =>
            rw [hacc] at hn
            dsimp only at hn
            rcases mem_if_map hn with ⟨er, _, rfl⟩
            exact .inl ⟨er.error, er.rule, acct, rfl⟩
          | ok x =>
            rw [hacc] at hn
            dsimp only at hn
            rcases List.mem_append.1 hn with hmem | hmem
            · rcases mem_if_map hmem with ⟨er, _, rfl⟩
              exact .inl ⟨er.error, er.rule, acct, rfl⟩
            · rcases List.mem_singleton.1 hmem with rfl
              exact .inr ⟨acct, rfl⟩
        · rw [if_pos (by simp [hp])] at hn
          dsimp only at hn
          rcases mem_if_map hn with ⟨er, _, rfl⟩
          exact .inl ⟨er.error, er.rule, acct, rfl⟩

theorem handle_event_no_topErr (ev : EvalFn) (toggle : Bool) (event : JVal)
    (key : String) (rules ig : List String) :
    ∀ n ∈ (handle_event ev toggle event key rules ig).1, isTopErrNotif n = false := by
  intro n hn
  rcases handle_event_shape ev toggle event key rules ig n hn with ⟨e, rule, acct, rfl⟩ | ⟨acct, rfl⟩
  · rfl
  · rfl

theorem handleEvents_no_topErr (ev : EvalFn) (toggle : Bool) (key : String)
    (rules ig : List String) :
    ∀ (l : List JVal), ∀ n ∈ (handleEvents ev toggle key rules ig l).1,
      isTopErrNotif n = false := by
  intro l
  induction l with
  | nil => intro n hn; simp [handleEvents] at hn
  | cons e rest ih =>
    intro n hn
    unfold handleEvents at hn
    split at hn
    next msgs err heq =>
      exact handle_event_no_topErr ev toggle e key rules ig n (by rw [heq]; exact hn)
    next msgs heq =>
      rcases List.mem_append.1 hn with hmem | hmem
      · exact handle_event_no_topErr ev toggle e key rules ig n (by rw [heq]; exact hmem)
      · exact ih n hmem

theorem handle_removed_no_topErr (record : JVal) :
    ∀ n ∈ (handle_removed_object_record record).1, isTopErrNotif n = false := by
  intro n hn
  unfold handle_removed_object_record at hn
  split at hn
  · simp at hn
  · rcases List.mem_singleton.1 hn with rfl
    rfl

theorem handle_created_no_topErr (fetch : JVal → String → Except Err JVal)
    (unquote : String → String) (ev : EvalFn) (toggle : Bool)
    (rules ig : List String) (record : JVal) :
    ∀ n ∈ (handle_created_object_record fetch unquote ev toggle rules ig record).1,
      isTopErrNotif n = false := by
  intro n hn
  unfold handle_created_object_record at hn
  split at hn
  · simp at hn
  · simp at hn
  · split at hn
    · simp at hn
    · exact handleEvents_no_topErr ev toggle _ rules ig _ n hn

theorem processRecord_no_topErr (fetch : JVal → String → Except Err JVal)
    (unquote : String → String) (ev : EvalFn) (toggle : Bool)
    (rules ig : List String) (record : JVal) :
    ∀ n ∈ (processRecord fetch unquote ev toggle rules ig record).1,
      isTopErrNotif n = false := by
  intro n hn
  unfold processRecord at hn
  split at hn
  · simp at hn
  · split at hn
    · simp at hn
    · split at hn
      · split at hn
        · exact handle_removed_no_topErr record n hn
        · split at hn
          · exact handle_created_no_topErr fetch unquote ev toggle rules ig record n hn
          · simp at hn
      · simp at hn

theorem processRecords_no_topErr (fetch : JVal → String → Except Err JVal)
    (unquote : String → String) (ev : EvalFn) (toggle : Bool)
    (rules ig : List String) :
    ∀ (l : List JVal), ∀ n ∈ (processRecords fetch unquote ev toggle rules ig l).1,
      isTopErrNotif n = false := by
  intro l
  induction l with
  | nil => intro n hn; simp [processRecords] at hn
  | cons r rest ih =>
    intro n hn
    unfold processRecords at hn
    split at hn
    next msgs err heq =>
      exact processRecord_no_topErr fetch unquote ev toggle rules ig r n (by rw [heq]; exact hn)
    next msgs heq =>
      rcases List.mem_append.1 hn with hmem | hmem
      · exact processRecord_no_topErr fetch unquote ev toggle rules ig r n (by rw [heq]; exact hmem)
      · exact ih n hmem

theorem runRecords_no_topErr (fetch : JVal → String → Except Err JVal)
    (unquote : String → String) (ev : EvalFn) (toggle : Bool)
    (rules ig : List String) (batch : JVal) :
    ∀ n ∈ (runRecords fetch unquote ev toggle rules ig batch).1,
      isTopErrNotif n = false := by
  intro n hn
  unfold runRecords at hn
  split at hn
  · simp at hn
  · exact processRecords_no_topErr fetch unquote ev toggle rules ig _ n hn

/-- C5: `lambda_handler` always returns status 200, for every input; an
exception escaping the record loop is caught exactly once at the top level and
produces exactly one top-level error notification carrying the triggering
batch (appended after whatever was already posted); with no escaping exception
no top-level error notification is posted. -/
theorem lambda_handler_always_200 (fetch : JVal → String → Except Err JVal)
    (unquote : String → String) (ev : EvalFn) (toggle : Bool)
    (rules ig : List String) (batch : JVal) :
    (lambda_handler fetch unquote ev toggle rules ig batch).1 = 200 ∧
    (lambda_handler fetch unquote ev toggle rules ig batch).2.countP isTopErrNotif =
      (match (runRecords fetch unquote ev toggle rules ig batch).2 with
       | some _ => 1
       | none => 0) ∧
    (∀ (sent : List Notification) (e : Err),
        runRecords fetch unquote ev toggle rules ig batch = (sent, some e) →
        lambda_handler fetch unquote ev toggle rules ig batch =
          (200, sent ++ [.slackError e batch])) ∧
    (∀ sent : List Notification,
        runRecords fetch unquote ev toggle rules ig batch = (sent, none) →
        lambda_handler fetch unquote ev toggle rules ig batch = (200, sent)) := by
  have hzero : (runRecords fetch unquote ev toggle rules ig batch).1.countP isTopErrNotif = 0 :=
    List.countP_eq_zero.2 (fun n hn => by
      simp [runRecords_no_topErr fetch unquote ev toggle rules ig batch n hn])
  rcases hrr : runRecords fetch unquote ev toggle rules ig batch with ⟨sent, err⟩
  have hz : sent.countP isTopErrNotif = 0 := by rw [hrr] at hzero; simpa using hzero
  cases err with
  | some e =>
    refine ⟨?_, ?_, ?_, ?_⟩
    · simp [lambda_handler, hrr]
    · simp [lambda_handler, hrr, List.countP_append, List.countP_cons, hz, isTopErrNotif]
    · intro sent' e' h
      injection h with h1 h2
      injection h2 with h3
      subst h1; subst h3
      simp [lambda_handler, hrr]
    · intro sent' h
      injection h with h1 h2
      simp at h2
  | none =>
    refine ⟨?_, ?_, ?_, ?_⟩
    · simp [lambda_handler, hrr]
    · simpa [lambda_handler, hrr] using hz
    · intro sent' e' h
      injection h with h1 h2
      simp at h2
    · intro sent' h
      injection h with h1 h2
      subst h1
      simp [lambda_handler, hrr]

/-- Witness for C5: a batch without a "Records" key raises, the handler returns
200 with exactly the one top-level error notification. -/
theorem lambda_handler_always_200_witness :
    runRecords fetchC idString evStub true [] [] (.obj []) =
      ([], some "KeyError: Records") ∧
    lambda_handler fetchC idString evStub true [] [] (.obj []) =
      (200, [.slackError "KeyError: Records" (.obj [])]) := by
  refine ⟨by rfl, ?_⟩
  have h := (lambda_handler_always_200 fetchC idString evStub true [] [] (.obj [])).2.2.1
    [] "KeyError: Records" (by rfl)
  exact h.trans (by rfl)

/-- Full output of `handle_event` when rule evaluation and the account-id /
AccessDenied lookups succeed: the rule-error notifications (when the toggle is
on) followed by the event message (when the event was accepted). -/
theorem handle_event_chr (ev : EvalFn) (toggle : Bool) (event : JVal) (key : String)
    (rules ig : List String) (b : Bool) (errs : List RuleError) (ui acct : JVal)
    (hres : should_message_be_processed ev event rules ig = .ok ⟨b, errs⟩)
    (hui : getItem event "userIdentity" = .ok ui)
    (hacct : accountIdOf ui = .ok acct)
    (hacc : b = true → ∃ x, accessDeniedCheck event = .ok x) :
    handle_event ev toggle event key rules ig =
      ((if toggle then errs.map (fun er => .ruleErrorMsg er.error key er.rule acct) else []) ++
        (if b then [.eventMsg event (.str key) acct] else []), none) := by
  unfold handle_event
  rw [hres]
  dsimp only
  rw [hui]
  dsimp only
  rw [hacct]
  dsimp only
  cases b with
  | false => simp
  | true =>
    obtain ⟨x, hx⟩ := hacc rfl
    rw [if_neg (by simp), hx]
    simp

/-- C8: rule-evaluation errors collected for a sub-event produce one dedicated
notification per failing rule exactly when the reporting toggle is on; with the
toggle off none is sent; in either case the collected errors do not prevent the
event message when a match rule accepted the event. -/
theorem rule_error_reporting_toggle (ev : EvalFn) (event : JVal) (key : String)
    (rules ig : List String) (b : Bool) (errs : List RuleError) (ui acct : JVal)
    (hres : should_message_be_processed ev event rules ig = .ok ⟨b, errs⟩)
    (hui : getItem event "userIdentity" = .ok ui)
    (hacct : accountIdOf ui = .ok acct)
    (hacc : b = true → ∃ x, accessDeniedCheck event = .ok x) :
    (handle_event ev true event key rules ig).1.countP isRuleErrNotif = errs.length ∧
    (handle_event ev false event key rules ig).1.countP isRuleErrNotif = 0 ∧
    (handle_event ev true event key rules ig).1 =
      errs.map (fun er => .ruleErrorMsg er.error key er.rule acct) ++
        (if b then [.eventMsg event (.str key) acct] else []) ∧
    (handle_event ev false event key rules ig).1 =
      (if b then [.eventMsg event (.str key) acct] else []) ∧
    (b = true → ∀ toggle : Bool,
        .eventMsg event (.str key) acct ∈ (handle_event ev toggle event key rules ig).1) := by
  have ht := handle_event_chr ev true event key rules ig b errs ui acct hres hui hacct hacc
  have hf := handle_event_chr ev false event key rules ig b errs ui acct hres hui hacct hacc
  have ht1 : (handle_event ev true event key rules ig).1 =
      errs.map (fun er => Notification.ruleErrorMsg er.error key er.rule acct) ++
        (if b then [Notification.eventMsg event (.str key) acct] else []) := by
    rw [ht]; simp
  have hf1 : (handle_event ev false event key rules ig).1 =
      (if b then [Notification.eventMsg event (.str key) acct] else []) := by
    rw [hf]; simp
  refine ⟨?_, ?_, ht1, hf1, ?_⟩
  · rw [ht1, List.countP_append, List.countP_map]
    have h1 : List.countP
        (isRuleErrNotif ∘ fun er => Notification.ruleErrorMsg er.error key er.rule acct)
        errs = errs.length :=
      List.countP_eq_length.2 (fun a _ => rfl)
    have h2 : List.countP isRuleErrNotif
        (if b then [Notification.eventMsg event (.str key) acct] else []) = 0 := by
      cases b <;> simp [List.countP_cons, isRuleErrNotif]
    rw [h1, h2]
    simp
  · rw [hf1]
    cases b <;> simp [List.countP_cons, isRuleErrNotif]
  · intro hb toggle
    have h := handle_event_chr ev toggle event key rules ig b errs ui acct hres hui hacct hacc
    have h1 : (handle_event ev toggle event key rules ig).1 =
        (if toggle then errs.map (fun er => Notification.ruleErrorMsg er.error key er.rule acct) else []) ++
          (if b then [Notification.eventMsg event (.str key) acct] else []) := by
      rw [h]
    rw [h1]
    subst hb
    simp

/-- Witness for C8: one raising rule then a matching rule; with the toggle on
exactly one rule-error notification, with it off only the event message. -/
theorem rule_error_reporting_toggle_witness :
    should_message_be_processed evStub subEventC ["E", "T"] [] =
      .ok ⟨true, [⟨"boom", "E"⟩]⟩ ∧
    (handle_event evStub true subEventC "k" ["E", "T"] []).1.countP isRuleErrNotif = 1 ∧
    (handle_event evStub false subEventC "k" ["E", "T"] []).1 =
      [.eventMsg subEventC (.str "k") (.str "")] := by
  have h := rule_error_reporting_toggle evStub subEventC "k" ["E", "T"] []
    true [⟨"boom", "E"⟩] (.obj []) (.str "") (by rfl) (by rfl) (by rfl)
    (fun _ => ⟨false, by rfl⟩)
  exact ⟨by rfl, h.1.trans (by rfl), h.2.2.2.1.trans (by rfl)⟩

/-- C10: `should_message_be_processed` requires `event["userIdentity"]` and
`event["eventName"]`: a missing key raises before any rule is evaluated (the
resulting error does not depend on the oracle or on the rule lists), the raise
aborts the remaining sub-events of the batch, and when `userIdentity` is present
but has no `accountId` key the empty string is the account id of every
notification posted for that event. -/
theorem missing_identity_and_default_account (event : JVal) :
    (∀ e : Err, getItem event "userIdentity" = .error e →
        ∀ (ev : EvalFn) (rules ig : List String),
          should_message_be_processed ev event rules ig = .error e) ∧
    (∀ (u : JVal) (e : Err), getItem event "userIdentity" = .ok u →
        getItem event "eventName" = .error e →
        ∀ (ev : EvalFn) (rules ig : List String),
          should_message_be_processed ev event rules ig = .error e) ∧
    (∀ (ev : EvalFn) (toggle : Bool) (key : String) (rules ig : List String) (e : Err),
        getItem event "userIdentity" = .error e →
        handle_event ev toggle event key rules ig = ([], some e)) ∧
    (∀ (ev : EvalFn) (toggle : Bool) (key : String) (rules ig : List String)
        (msgs : List Notification) (err : Err) (rest : List JVal),
        handle_event ev toggle event key rules ig = (msgs, some err) →
        handleEvents ev toggle key rules ig (event :: rest) = (msgs, some err)) ∧
    (∀ (ev : EvalFn) (toggle : Bool) (key : String) (rules ig : List String)
        (b : Bool) (errs : List RuleError) (ui : JVal),
        getItem event "userIdentity" = .ok ui →
        pyIn "accountId" ui = .ok false →
        should_message_be_processed ev event rules ig = .ok ⟨b, errs⟩ →
        (b = true → ∃ x, accessDeniedCheck event = .ok x) →
        ∀ n ∈ (handle_event ev toggle event key rules ig).1,
          notifAccount n = .str "") := by
  refine ⟨?_, ?_, ?_, ?_, ?_⟩
  · intro e he ev rules ig
    simp [should_message_be_processed, he]
  · intro u e hu he ev rules ig
    simp [should_message_be_processed, hu, he]
  · intro ev toggle key rules ig e he
    simp [handle_event, should_message_be_processed, he]
  · intro ev toggle key rules ig msgs err rest h
    simp [handleEvents, h]
  · intro ev toggle key rules ig b errs ui hui hnoacc hres hacc
    have hacct : accountIdOf ui = .ok (.str "") := by
      simp [accountIdOf, hnoacc, Bind.bind, Except.bind]
    have h := handle_event_chr ev toggle event key rules ig b errs ui (.str "")
      hres hui hacct hacc
    have h1 : (handle_event ev toggle event key rules ig).1 =
        (if toggle then
            errs.map (fun er => Notification.ruleErrorMsg er.error key er.rule (.str ""))
          else []) ++
          (if b then [Notification.eventMsg event (.str key) (.str "")] else []) := by
      rw [h]
    intro n hn
    rw [h1] at hn
    rcases List.mem_append.1 hn with hmem | hmem
    · rcases mem_if_map hmem with ⟨er, _, rfl⟩
      rfl
    · cases b with
      | false => simp at hmem
      | true =>
        rcases List.mem_singleton.1 (by simpa using hmem) with rfl
        rfl

/-- Witness for C10: an event without `userIdentity` makes the evaluator and
`handle_event` raise KeyError, a batch stops at that sub-event, and the
sub-event with an empty `userIdentity` dict gets the empty-string account id. -/
theorem missing_identity_and_default_account_witness :
    getItem (.obj []) "userIdentity" = .error "KeyError: userIdentity" ∧
    should_message_be_processed evStub (.obj []) [] [] = .error "KeyError: userIdentity" ∧
    handle_event evStub true (.obj []) "k" [] [] = ([], some "KeyError: userIdentity") ∧
    handleEvents evStub true "k" [] [] [.obj [], subEventC] =
      ([], some "KeyError: userIdentity") ∧
    notifAccount (.eventMsg subEventC (.str "k") (.str "")) = .str "" := by
  have h := missing_identity_and_default_account (.obj [])
  have h2 := missing_identity_and_default_account subEventC
  refine ⟨by rfl, h.1 "KeyError: userIdentity" (by rfl) evStub [] [],
    h.2.2.1 evStub true "k" [] [] "KeyError: userIdentity" (by rfl), ?_, ?_⟩
  · exact h.2.2.2.1 evStub true "k" [] [] [] "KeyError: userIdentity" [subEventC]
      (h.2.2.1 evStub true "k" [] [] "KeyError: userIdentity" (by rfl))
  · exact h2.2.2.2.2 evStub true "k" ["T"] [] true [] (.obj []) (by rfl) (by rfl)
      (by rfl) (fun _ => ⟨false, by rfl⟩)
      (.eventMsg subEventC (.str "k") (.str ""))
      (List.mem_singleton.2 rfl)

/-- C6: a created-object record whose URL-decoded key contains "Digest" makes
`get_cloudtrail_log_records` return `None` whatever the fetcher does (the result
does not depend on `fetch`: no object fetch or decode is attempted), and
consequently `handle_created_object_record` posts no notification for it. -/
theorem digest_key_skipped (unquote : String → String)
    (record s3v bucketv bkt ov : JVal) (k : String)
    (hs3in : pyIn "s3" record = .ok true)
    (hs3 : getItem record "s3" = .ok s3v)
    (hb : getItem s3v "bucket" = .ok bucketv)
    (hbn : getItem bucketv "name" = .ok bkt)
    (hov : getItem s3v "object" = .ok ov)
    (hkey : getItem ov "key" = .ok (.str k))
    (hdg : strHasSub (unquote k) "Digest" = true) :
    (∀ fetch : JVal → String → Except Err JVal,
        get_cloudtrail_log_records fetch unquote record = .ok none) ∧
    (∀ (fetch : JVal → String → Except Err JVal) (ev : EvalFn) (toggle : Bool)
        (rules ig : List String),
        handle_created_object_record fetch unquote ev toggle rules ig record =
          ([], none)) := by
  have h1 : ∀ fetch : JVal → String → Except Err JVal,
      get_cloudtrail_log_records fetch unquote record = .ok none := by
    intro fetch
    simp [get_cloudtrail_log_records, hs3in, hs3, hb, hbn, hov, hkey, hdg,
      Bind.bind, Except.bind, asPyStr, pure, Except.pure]
  refine ⟨h1, ?_⟩
  intro fetch ev toggle rules ig
  simp [handle_created_object_record, h1 fetch]

/-- Witness for C6: a key containing "Digest" is skipped, nothing is posted. -/
theorem digest_key_skipped_witness :
    strHasSub (idString "AWSLogs-Digest-1.gz") "Digest" = true ∧
    get_cloudtrail_log_records fetchC idString digestRecordC = .ok none ∧
    handle_created_object_record fetchC idString evStub true ["T"] [] digestRecordC =
      ([], none) := by
  have h := digest_key_skipped idString digestRecordC
    (.obj [("bucket", .obj [("name", .str "b")]),
           ("object", .obj [("key", .str "AWSLogs-Digest-1.gz")])])
    (.obj [("name", .str "b")]) (.str "b")
    (.obj [("key", .str "AWSLogs-Digest-1.gz")]) "AWSLogs-Digest-1.gz"
    (by rfl) (by rfl) (by rfl) (by rfl) (by rfl) (by rfl) (by rfl)
  exact ⟨by rfl, h.1 fetchC, h.2 fetchC evStub true ["T"] []⟩

/-- C9: a removal-type record always produces exactly one removal notification,
built from the record itself, through a path that takes no rule configuration
at all: the dispatched result is the same for every oracle and rule lists. -/
theorem removal_record_single_notification (record ui acct s3v ov keyv : JVal)
    (hui : getItem record "userIdentity" = .ok ui)
    (hacct : accountIdOf ui = .ok acct)
    (hs3 : getItem record "s3" = .ok s3v)
    (hov : getItem s3v "object" = .ok ov)
    (hkey : getItem ov "key" = .ok keyv) :
    handle_removed_object_record record = ([.eventMsg record keyv acct], none) ∧
    (handle_removed_object_record record).1.length = 1 ∧
    (∀ (fetch : JVal → String → Except Err JVal) (unquote : String → String)
        (ev : EvalFn) (toggle : Bool) (rules ig : List String) (en : String) (dg : Bool),
        getItem record "eventName" = .ok (.str en) →
        pyIn "Digest" keyv = .ok dg →
        pyStartsWith en "ObjectRemoved" = true →
        processRecord fetch unquote ev toggle rules ig record =
          ([.eventMsg record keyv acct], none)) := by
  have h1 : handle_removed_object_record record = ([.eventMsg record keyv acct], none) := by
    simp [handle_removed_object_record, hui, hacct, hs3, hov, hkey,
      Bind.bind, Except.bind, pure, Except.pure]
  refine ⟨h1, by rw [h1]; rfl, ?_⟩
  intro fetch unquote ev toggle rules ig en dg hen hdg hsw
  simp [processRecord, hen, hs3, hov, hkey, hdg, hsw, Bind.bind, Except.bind, h1]

/-- Witness for C9: the concrete removal record yields exactly its one removal
message, under a non-trivial rule configuration. -/
theorem removal_record_single_notification_witness :
    (handle_removed_object_record removalRecordC).1.length = 1 ∧
    processRecord fetchC idString evStub true ["T"] ["T"] removalRecordC =
      ([.eventMsg removalRecordC (.str "k.gz") (.str "42")], none) := by
  have h := removal_record_single_notification removalRecordC
    (.obj [("accountId", .str "42")]) (.str "42")
    (.obj [("bucket", .obj [("name", .str "b")]),
           ("object", .obj [("key", .str "k.gz")])])
    (.obj [("key", .str "k.gz")]) (.str "k.gz")
    (by rfl) (by rfl) (by rfl) (by rfl) (by rfl)
  exact ⟨h.2.1, h.2.2 fetchC idString evStub true ["T"] ["T"] "ObjectRemoved:Delete"
    false (by rfl) (by rfl) (by rfl)⟩

/-- C7 counterexample: a decoded batch with N = 1 sub-event triggers 2 calls
into the notification path (`post_message`) when the error-reporting toggle is
on and a rule raises before a rule matches: one rule-evaluation-error
notification plus the event notification. -/
theorem created_record_excess_calls :
    get_cloudtrail_log_records fetchC idString createRecordC =
      .ok (some ⟨"k", .arr [subEventC]⟩) ∧
    (handle_created_object_record fetchC idString evStub true ["E", "T"] []
      createRecordC).1.length = 2 ∧
    (handle_created_object_record fetchC idString evStub true ["E", "T"] []
      createRecordC).1 =
      [.ruleErrorMsg "boom" "k" "E" (.str ""), .eventMsg subEventC (.str "k") (.str "")] := by
  refine ⟨by rfl, by rfl, by rfl⟩

theorem countP_eventNotif_errNotifs (toggle : Bool) (errs : List RuleError)
    (key : String) (acct : JVal) :
    List.countP isEventNotif
      (if toggle = true then
          errs.map (fun er => Notification.ruleErrorMsg er.error key er.rule acct)
        else []) = 0 := by
  cases toggle
  · simp
  · rw [if_pos rfl, List.countP_map]
    exact List.countP_eq_zero.2 (fun a _ => by simp [Function.comp, isEventNotif])

theorem handle_event_eventCount_le (ev : EvalFn) (toggle : Bool) (event : JVal)
    (key : String) (rules ig : List String) :
    (handle_event ev toggle event key rules ig).1.countP isEventNotif ≤ 1 := by
  unfold handle_event
  cases hres : should_message_be_processed ev event rules ig with
  | error e => simp
  | ok result =>
    dsimp only
    cases hui : getItem event "userIdentity" with
    | error e => simp
    | ok ui =>
      dsimp only
      cases hacct : accountIdOf ui with
      | error e => simp
      | ok acct =>
        dsimp only
        by_cases hp : result.should_be_processed
        · rw [if_neg (by simp [hp])]
          cases hacc : accessDeniedCheck event with
          | error e =>
            dsimp only
            rw [countP_eventNotif_errNotifs]
            simp
          | ok x =>
            dsimp only
            rw [List.countP_append, countP_eventNotif_errNotifs]
            simp [List.countP_cons, isEventNotif]
        · rw [if_pos (by simp [hp])]
          dsimp only
          rw [countP_eventNotif_errNotifs]
          simp

theorem handle_event_eventCount_rejected (ev : EvalFn) (toggle : Bool) (event : JVal)
    (key : String) (rules ig : List String) (errs : List RuleError)
    (hres : should_message_be_processed ev event rules ig = .ok ⟨false, errs⟩) :
    (handle_event ev toggle event key rules ig).1.countP isEventNotif = 0 := by
  unfold handle_event
  rw [hres]
  dsimp only
  cases hui : getItem event "userIdentity" with
  | error e => simp
  | ok ui =>
    dsimp only
    cases hacct : accountIdOf ui with
    | error e => simp
    | ok acct =>
      dsimp only
      rw [if_pos (by simp)]
      dsimp only
      rw [countP_eventNotif_errNotifs]

theorem handleEvents_eventCount_le (ev : EvalFn) (toggle : Bool) (key : String)
    (rules ig : List String) :
    ∀ l : List JVal,
      (handleEvents ev toggle key rules ig l).1.countP isEventNotif ≤ l.length := by
  intro l
  induction l with
  | nil => simp [handleEvents]
  | cons e rest ih =>
    unfold handleEvents
    cases heq : handle_event ev toggle e key rules ig with
    | mk msgs err =>
      cases err with
      | some er =>
        dsimp only
        calc msgs.countP isEventNotif
            = (handle_event ev toggle e key rules ig).1.countP isEventNotif := by rw [heq]
          _ ≤ 1 := handle_event_eventCount_le ev toggle e key rules ig
          _ ≤ (e :: rest).length := by simp
      | none =>
        dsimp only
        rw [List.countP_append]
        have h1 : msgs.countP isEventNotif ≤ 1 := by
          calc msgs.countP isEventNotif
              = (handle_event ev toggle e key rules ig).1.countP isEventNotif := by rw [heq]
            _ ≤ 1 := handle_event_eventCount_le ev toggle e key rules ig
        have h2 := ih
        simp only [List.length_cons]
        omega

/-- C7 amended: counting only event notifications (the output of
`event_to_slack_message`), a record whose decoded batch has N sub-events
produces at most N of them — at most one per sub-event and none for a rejected
sub-event; rule-evaluation-error reporting, when enabled, may add further
notification-path calls beyond N (see the counterexample). -/
theorem created_record_event_notification_bound (ev : EvalFn) (toggle : Bool) :
    (∀ (key : String) (rules ig : List String) (event : JVal),
        (handle_event ev toggle event key rules ig).1.countP isEventNotif ≤ 1) ∧
    (∀ (key : String) (rules ig : List String) (event : JVal) (errs : List RuleError),
        should_message_be_processed ev event rules ig = .ok ⟨false, errs⟩ →
        (handle_event ev toggle event key rules ig).1.countP isEventNotif = 0) ∧
    (∀ (key : String) (rules ig : List String) (l : List JVal),
        (handleEvents ev toggle key rules ig l).1.countP isEventNotif ≤ l.length) ∧
    (∀ (fetch : JVal → String → Except Err JVal) (unquote : String → String)
        (rules ig : List String) (record : JVal) (clr : CloudtrailLogRecord)
        (evs : List JVal),
        get_cloudtrail_log_records fetch unquote record = .ok (some clr) →
        iterElems clr.events = .ok evs →
        (handle_created_object_record fetch unquote ev toggle rules ig record).1.countP
          isEventNotif ≤ evs.length) := by
  refine ⟨?_, ?_, ?_, ?_⟩
  · intro key rules ig event
    exact handle_event_eventCount_le ev toggle event key rules ig
  · intro key rules ig event errs hres
    exact handle_event_eventCount_rejected ev toggle event key rules ig errs hres
  · intro key rules ig l
    exact handleEvents_eventCount_le ev toggle key rules ig l
  · intro fetch unquote rules ig record clr evs hget hiter
    unfold handle_created_object_record
    rw [hget]
    dsimp only
    rw [hiter]
    exact handleEvents_eventCount_le ev toggle clr.key rules ig evs

/-- Witness for C7 amended: the counterexample configuration stays within the
bound once only event notifications are counted. -/
theorem created_record_event_notification_bound_witness :
    get_cloudtrail_log_records fetchC idString createRecordC =
      .ok (some ⟨"k", .arr [subEventC]⟩) ∧
    (handle_created_object_record fetchC idString evStub true ["E", "T"] []
      createRecordC).1.countP isEventNotif ≤ 1 := by
  refine ⟨by rfl, ?_⟩
  have h := (created_record_event_notification_bound evStub true).2.2.2
    fetchC idString ["E", "T"] [] createRecordC ⟨"k", .arr [subEventC]⟩
    [subEventC] (by rfl) (by rfl)
  simpa using h

theorem decDigits_lt (n : Nat) : ∀ d ∈ decDigits n, d < 10 := by
  induction n using Nat.strong_induction_on with
  | _ n ih =>
    rw [decDigits]
    by_cases h : n < 10
    · rw [dif_pos h]
      intro d hd
      rcases List.mem_singleton.1 hd with rfl
      exact h
    · rw [dif_neg h]
      intro d hd
      rcases List.mem_append.1 hd with hm | hm
      · exact ih (n / 10) (Nat.div_lt_self (by omega) (by omega)) d hm
      · rcases List.mem_singleton.1 hm with rfl
        exact Nat.mod_lt _ (by omega)

theorem ofDecDigits_decDigits (n : Nat) : ofDecDigits (decDigits n) = n := by
  induction n using Nat.strong_induction_on with
  | _ n ih =>
    rw [decDigits]
    by_cases h : n < 10
    · rw [dif_pos h]
      simp [ofDecDigits]
    · rw [dif_neg h]
      unfold ofDecDigits
      rw [List.foldl_append]
      have := ih (n / 10) (Nat.div_lt_self (by omega) (by omega))
      unfold ofDecDigits at this
      rw [this]
      simp [Nat.div_add_mod]

theorem toDigitsCore_decDigits :
    ∀ (fuel n : Nat) (acc : List Char), n < fuel →
      Nat.toDigitsCore 10 fuel n acc = (decDigits n).map Nat.digitChar ++ acc := by
  intro fuel
  induction fuel with
  | zero => intro n acc h; omega
  | succ f ih =>
    intro n acc h
    rw [Nat.toDigitsCore]
    by_cases h0 : n / 10 = 0
    · have hn : n < 10 := by
        by_contra hc
        have h2 : 1 ≤ n / 10 := (Nat.le_div_iff_mul_le (by omega)).2 (by omega)
        omega
      simp only [h0, if_pos rfl]
      rw [decDigits, dif_pos hn]
      simp [Nat.mod_eq_of_lt hn]
    · have hn : ¬ n < 10 := fun hc => h0 (Nat.div_eq_of_lt hc)
      have h1 : n / 10 < f := by
        have h2 : n / 10 < n := Nat.div_lt_self (by omega) (by omega)
        omega
      simp only [if_neg h0]
      rw [ih (n / 10) _ h1]
      rw [show decDigits n = decDigits (n / 10) ++ [n % 10] from by
        rw [decDigits, dif_neg hn]]
      simp

theorem repr_data (n : Nat) : (Nat.repr n).data = (decDigits n).map Nat.digitChar := by
  show ((Nat.toDigits 10 n).asString).data = _
  rw [Nat.toDigits, toDigitsCore_decDigits (n + 1) n [] (by omega)]
  simp [List.asString]

theorem digitChar_ne_dot : ∀ d, d < 10 → Nat.digitChar d ≠ '.' := by decide

theorem digitChar_inj_lt :
    ∀ d₁, d₁ < 10 → ∀ d₂, d₂ < 10 → Nat.digitChar d₁ = Nat.digitChar d₂ → d₁ = d₂ := by
  decide

theorem repr_no_dot (n : Nat) : '.' ∉ (Nat.repr n).data := by
  rw [repr_data]
  intro hmem
  rcases List.mem_map.1 hmem with ⟨d, hd, hEq⟩
  exact digitChar_ne_dot d (decDigits_lt n d hd) hEq

theorem map_digitChar_inj :
    ∀ (l₁ l₂ : List Nat), (∀ d ∈ l₁, d < 10) → (∀ d ∈ l₂, d < 10) →
      l₁.map Nat.digitChar = l₂.map Nat.digitChar → l₁ = l₂ := by
  intro l₁
  induction l₁ with
  | nil =>
    intro l₂ _ _ h
    cases l₂ with
    | nil => rfl
    | cons b bs => simp at h
  | cons a as ih =>
    intro l₂ h1 h2 h
    cases l₂ with
    | nil => simp at h
    | cons b bs =>
      simp only [List.map_cons, List.cons.injEq] at h
      obtain ⟨hab, ht⟩ := h
      have hEq : a = b := digitChar_inj_lt a (h1 a (by simp)) b (h2 b (by simp)) hab
      rw [hEq, ih bs (fun d hd => h1 d (by simp [hd])) (fun d hd => h2 d (by simp [hd])) ht]

theorem repr_inj {m n : Nat} (h : Nat.repr m = Nat.repr n) : m = n := by
  have hd : (decDigits m).map Nat.digitChar = (decDigits n).map Nat.digitChar := by
    rw [← repr_data, ← repr_data, h]
  have hdd : decDigits m = decDigits n :=
    map_digitChar_inj _ _ (decDigits_lt m) (decDigits_lt n) hd
  calc m = ofDecDigits (decDigits m) := (ofDecDigits_decDigits m).symm
    _ = ofDecDigits (decDigits n) := by rw [hdd]
    _ = n := ofDecDigits_decDigits n

theorem sep_cons_ne :
    ∀ (a₁ a₂ r₁ r₂ : List Char), '.' ∉ a₁ → '.' ∉ a₂ → a₁ ≠ a₂ →
      a₁ ++ '.' :: r₁ ≠ a₂ ++ '.' :: r₂ := by
  intro a₁
  induction a₁ with
  | nil =>
    intro a₂ r₁ r₂ _ h2 hne h
    cases a₂ with
    | nil => exact hne rfl
    | cons c cs =>
      simp only [List.nil_append, List.cons_append, List.cons.injEq] at h
      exact h2 (by simp [h.1.symm])
  | cons c cs ih =>
    intro a₂ r₁ r₂ h1 h2 hne h
    cases a₂ with
    | nil =>
      simp only [List.cons_append, List.nil_append, List.cons.injEq] at h
      exact h1 (by simp [h.1])
    | cons d ds =>
      simp only [List.cons_append, List.cons.injEq] at h
      obtain ⟨hcd, ht⟩ := h
      subst hcd
      by_cases hcs : cs = ds
      · subst hcs; exact hne rfl
      · exact ih ds r₁ r₂ (fun hm => h1 (by simp [hm])) (fun hm => h2 (by simp [hm])) hcs ht

theorem pathChars_append :
    ∀ p q : List Seg, pathChars (p ++ q) = pathChars p ++ pathChars q := by
  intro p
  induction p with
  | nil => intro q; simp [pathChars]
  | cons s rest ih => intro q; simp [pathChars, ih]

theorem pathChars_ends_dot :
    ∀ p : List Seg, p ≠ [] → ∃ l, pathChars p = l ++ ['.'] := by
  intro p
  induction p with
  | nil => intro h; exact absurd rfl h
  | cons s rest ih =>
    intro _
    cases hrest : rest with
    | nil => exact ⟨segChars s, by simp [pathChars]⟩
    | cons s' rest' =>
      obtain ⟨l, hl⟩ := ih (by simp [hrest])
      rw [← hrest]
      exact ⟨segChars s ++ '.' :: l, by simp [pathChars, hl]⟩

theorem keyOf_ne {p₁ p₂ : List Seg} (h₁ : p₁ ≠ []) (h₂ : p₂ ≠ [])
    (hne : pathChars p₁ ≠ pathChars p₂) : keyOf p₁ ≠ keyOf p₂ := by
  intro h
  obtain ⟨l₁, hl₁⟩ := pathChars_ends_dot p₁ h₁
  obtain ⟨l₂, hl₂⟩ := pathChars_ends_dot p₂ h₂
  have hdata : (pathChars p₁).dropLast = (pathChars p₂).dropLast := congrArg String.data h
  rw [hl₁, hl₂, List.dropLast_concat, List.dropLast_concat] at hdata
  exact hne (by rw [hl₁, hl₂, hdata])

theorem dotFreeStr_no_dot {a : String} (h : dotFreeStr a = true) : '.' ∉ a.data := by
  intro hmem
  have := List.all_eq_true.1 h '.' hmem
  simp at this

theorem noDupStr_cons {a : String} {l : List String} (h : noDupStr (a :: l) = true) :
    (∀ b ∈ l, a ≠ b) ∧ noDupStr l = true := by
  rw [noDupStr, Bool.and_eq_true] at h
  refine ⟨fun b hb => ?_, h.2⟩
  have := List.all_eq_true.1 h.1 b hb
  simpa using this

theorem pyDict_obj {kvs : List (String × JVal)} (h : pyDict (.obj kvs) = true) :
    noDupStr (kvs.map Prod.fst) = true ∧ pyDictList kvs = true := by
  rw [pyDict, Bool.and_eq_true] at h
  exact h

theorem pyDictList_mem :
    ∀ {kvs : List (String × JVal)} {a : String} {v : JVal},
      pyDictList kvs = true → (a, v) ∈ kvs → pyDict v = true := by
  intro kvs
  induction kvs with
  | nil => intro a v _ hm; simp at hm
  | cons av rest ih =>
    intro a v h hm
    cases av with | mk a' v' =>
    rw [pyDictList, Bool.and_eq_true] at h
    rcases List.mem_cons.1 hm with hEq | hm'
    · cases hEq; exact h.1
    · exact ih h.2 hm'

theorem pyDictArr_mem :
    ∀ {xs : List JVal} {x : JVal}, pyDictArr xs = true → x ∈ xs → pyDict x = true := by
  intro xs
  induction xs with
  | nil => intro x _ hm; simp at hm
  | cons y rest ih =>
    intro x h hm
    rw [pyDictArr, Bool.and_eq_true] at h
    rcases List.mem_cons.1 hm with hEq | hm'
    · cases hEq; exact h.1
    · exact ih h.2 hm'

theorem dotFreeKeysList_mem :
    ∀ {kvs : List (String × JVal)} {a : String} {v : JVal},
      dotFreeKeysList kvs = true → (a, v) ∈ kvs →
      dotFreeStr a = true ∧ dotFreeKeys v = true := by
  intro kvs
  induction kvs with
  | nil => intro a v _ hm; simp at hm
  | cons av rest ih =>
    intro a v h hm
    cases av with | mk a' v' =>
    rw [dotFreeKeysList, Bool.and_eq_true, Bool.and_eq_true] at h
    rcases List.mem_cons.1 hm with hEq | hm'
    · cases hEq; exact h.1
    · exact ih h.2 hm'

theorem dotFreeKeysArr_mem :
    ∀ {xs : List JVal} {x : JVal},
      dotFreeKeysArr xs = true → x ∈ xs → dotFreeKeys x = true := by
  intro xs
  induction xs with
  | nil => intro x _ hm; simp at hm
  | cons y rest ih =>
    intro x h hm
    rw [dotFreeKeysArr, Bool.and_eq_true] at h
    rcases List.mem_cons.1 hm with hEq | hm'
    · cases hEq; exact h.1
    · exact ih h.2 hm'

theorem mem_leavesObj :
    ∀ (kvs : List (String × JVal)) (p : List Seg) (l : List Seg × JVal),
      l ∈ leavesObj kvs p →
      ∃ a v, (a, v) ∈ kvs ∧ l ∈ leavesAux v (p ++ [Seg.key a]) := by
  intro kvs
  induction kvs with
  | nil => intro p l hl; simp [leavesObj] at hl
  | cons av rest ih =>
    intro p l hl
    cases av with | mk a v =>
    rw [leavesObj] at hl
    rcases List.mem_append.1 hl with h | h
    · exact ⟨a, v, by simp, h⟩
    · rcases ih p l h with ⟨a', v', hm, hx⟩
      exact ⟨a', v', by simp [hm], hx⟩

theorem mem_leavesArr :
    ∀ (xs : List JVal) (i : Nat) (p : List Seg) (l : List Seg × JVal),
      l ∈ leavesArr xs i p →
      ∃ j x, xs.get? j = some x ∧ l ∈ leavesAux x (p ++ [Seg.idx (i + j)]) := by
  intro xs
  induction xs with
  | nil => intro i p l hl; simp [leavesArr] at hl
  | cons x rest ih =>
    intro i p l hl
    rw [leavesArr] at hl
    rcases List.mem_append.1 hl with h | h
    · exact ⟨0, x, rfl, by simpa using h⟩
    · rcases ih (i + 1) p l h with ⟨j, x', hj, hx⟩
      refine ⟨j + 1, x', by simpa using hj, ?_⟩
      have hidx : i + (j + 1) = (i + 1) + j := by omega
      rw [hidx]
      exact hx

theorem leavesAux_shape :
    (x : JVal) → ∀ (p : List Seg) (l : List Seg × JVal),
      l ∈ leavesAux x p → ∃ q, l.1 = p ++ q
  | .obj kvs => by
    intro p l hl
    simp only [leavesAux] at hl
    rcases mem_leavesObj kvs p l hl with ⟨a, v, hm, hx⟩
    rcases leavesAux_shape v (p ++ [Seg.key a]) l hx with ⟨q, hq⟩
    exact ⟨Seg.key a :: q, by simp [hq]⟩
  | .arr xs => by
    intro p l hl
    simp only [leavesAux] at hl
    rcases mem_leavesArr xs 0 p l hl with ⟨j, x, hj, hx⟩
    rcases leavesAux_shape x (p ++ [Seg.idx (0 + j)]) l hx with ⟨q, hq⟩
    exact ⟨Seg.idx (0 + j) :: q, by simp [hq]⟩
  | .str s => by
    intro p l hl
    simp only [leavesAux] at hl
    rcases List.mem_singleton.1 hl with rfl
    exact ⟨[], by simp⟩
  | .num n => by
    intro p l hl
    simp only [leavesAux] at hl
    rcases List.mem_singleton.1 hl with rfl
    exact ⟨[], by simp⟩
  | .bool b => by
    intro p l hl
    simp only [leavesAux] at hl
    rcases List.mem_singleton.1 hl with rfl
    exact ⟨[], by simp⟩
  | .null => by
    intro p l hl
    simp only [leavesAux] at hl
    rcases List.mem_singleton.1 hl with rfl
    exact ⟨[], by simp⟩
termination_by x => sizeOf x
decreasing_by
  · have hs := List.sizeOf_lt_of_mem hm
    cases l with | mk l1 l2 =>
    simp only [Prod.mk.sizeOf_spec] at hs
    simp only [JVal.obj.sizeOf_spec]
    omega
  · have hs := List.sizeOf_lt_of_mem (List.get?_mem hj)
    simp only [JVal.arr.sizeOf_spec]
    omega

theorem pairwise_leavesObj (kvs : List (String × JVal))
    (IH : ∀ a v, (a, v) ∈ kvs → ∀ p' : List Seg,
        (leavesAux v p').Pairwise (fun l1 l2 => pathChars l1.1 ≠ pathChars l2.1))
    (hnd : noDupStr (kvs.map Prod.fst) = true)
    (hdf : ∀ a v, (a, v) ∈ kvs → dotFreeStr a = true) :
    ∀ p : List Seg,
      (leavesObj kvs p).Pairwise (fun l1 l2 => pathChars l1.1 ≠ pathChars l2.1) := by
  induction kvs with
  | nil => intro p; simp [leavesObj]
  | cons av rest ih =>
    cases av with | mk a v =>
    intro p
    rw [leavesObj, List.pairwise_append]
    refine ⟨IH a v (by simp) (p ++ [Seg.key a]),
      ih (fun a' v' hm => IH a' v' (by simp [hm]))
        (noDupStr_cons (by simpa using hnd)).2
        (fun a' v' hm => hdf a' v' (by simp [hm])) p, ?_⟩
    intro l1 h1 l2 h2
    rcases mem_leavesObj rest p l2 h2 with ⟨a', v', hm', hx'⟩
    rcases leavesAux_shape v (p ++ [Seg.key a]) l1 h1 with ⟨q1, hq1⟩
    rcases leavesAux_shape v' (p ++ [Seg.key a']) l2 hx' with ⟨q2, hq2⟩
    have hne : a ≠ a' :=
      (noDupStr_cons (by simpa using hnd)).1 a' (List.mem_map_of_mem Prod.fst hm')
    have hdot1 : '.' ∉ a.data := dotFreeStr_no_dot (hdf a v (by simp))
    have hdot2 : '.' ∉ a'.data := dotFreeStr_no_dot (hdf a' v' (by simp [hm']))
    rw [hq1, hq2]
    intro hEq
    simp only [List.append_assoc, pathChars_append] at hEq
    have hEq2 := List.append_cancel_left hEq
    simp only [List.cons_append, pathChars, segChars] at hEq2
    simp only [List.append_assoc, List.singleton_append] at hEq2
    exact sep_cons_ne a.data a'.data (pathChars q1) (pathChars q2) hdot1 hdot2
      (fun hd => hne (String.ext hd)) hEq2

theorem pairwise_leavesArr (xs : List JVal)
    (IH : ∀ x ∈ xs, ∀ p' : List Seg,
        (leavesAux x p').Pairwise (fun l1 l2 => pathChars l1.1 ≠ pathChars l2.1)) :
    ∀ (i : Nat) (p : List Seg),
      (leavesArr xs i p).Pairwise (fun l1 l2 => pathChars l1.1 ≠ pathChars l2.1) := by
  induction xs with
  | nil => intro i p; simp [leavesArr]
  | cons x rest ih =>
    intro i p
    rw [leavesArr, List.pairwise_append]
    refine ⟨IH x (by simp) (p ++ [Seg.idx i]),
      ih (fun x' hm => IH x' (by simp [hm])) (i + 1) p, ?_⟩
    intro l1 h1 l2 h2
    rcases mem_leavesArr rest (i + 1) p l2 h2 with ⟨j, x', hj, hx'⟩
    rcases leavesAux_shape x (p ++ [Seg.idx i]) l1 h1 with ⟨q1, hq1⟩
    rcases leavesAux_shape x' (p ++ [Seg.idx ((i + 1) + j)]) l2 hx' with ⟨q2, hq2⟩
    have hne : i ≠ (i + 1) + j := by omega
    rw [hq1, hq2]
    intro hEq
    simp only [List.append_assoc, pathChars_append] at hEq
    have hEq2 := List.append_cancel_left hEq
    simp only [List.cons_append, pathChars, segChars] at hEq2
    simp only [List.append_assoc, List.singleton_append] at hEq2
    exact sep_cons_ne (Nat.repr i).data (Nat.repr ((i + 1) + j)).data
      (pathChars q1) (pathChars q2) (repr_no_dot i) (repr_no_dot ((i + 1) + j))
      (fun hd => hne (repr_inj (String.ext hd))) hEq2

theorem pairwise_leavesAux :
    (x : JVal) → pyDict x = true → dotFreeKeys x = true →
      ∀ p : List Seg,
        (leavesAux x p).Pairwise (fun l1 l2 => pathChars l1.1 ≠ pathChars l2.1)
  | .obj kvs => fun hwf hdf p => by
    simp only [leavesAux]
    have hobj := pyDict_obj hwf
    have hdfl : dotFreeKeysList kvs = true := by simpa [dotFreeKeys] using hdf
    exact pairwise_leavesObj kvs
      (fun a v hm p' => pairwise_leavesAux v (pyDictList_mem hobj.2 hm)
        (dotFreeKeysList_mem hdfl hm).2 p')
      hobj.1 (fun a v hm => (dotFreeKeysList_mem hdfl hm).1) p
  | .arr xs => fun hwf hdf p => by
    simp only [leavesAux]
    have harr : pyDictArr xs = true := by simpa [pyDict] using hwf
    have hdfa : dotFreeKeysArr xs = true := by simpa [dotFreeKeys] using hdf
    exact pairwise_leavesArr xs
      (fun x hm p' => pairwise_leavesAux x (pyDictArr_mem harr hm)
        (dotFreeKeysArr_mem hdfa hm) p') 0 p
  | .str s => fun _ _ p => by simp [leavesAux]
  | .num n => fun _ _ p => by simp [leavesAux]
  | .bool b => fun _ _ p => by simp [leavesAux]
  | .null => fun _ _ p => by simp [leavesAux]
termination_by x => sizeOf x
decreasing_by
  · have hs := List.sizeOf_lt_of_mem hm
    simp only [Prod.mk.sizeOf_spec] at hs
    simp only [JVal.obj.sizeOf_spec]
    omega
  · have hs := List.sizeOf_lt_of_mem hm
    simp only [JVal.arr.sizeOf_spec]
    omega

theorem leaves_keys_nodup (y : JVal) (hwf : pyDict y = true) (hdf : dotFreeKeys y = true) :
    ((leaves y).map (fun l => keyOf l.1)).Nodup := by
  show List.Pairwise (fun a b => a ≠ b) _
  rw [List.pairwise_map]
  have hp := pairwise_leavesAux y hwf hdf []
  refine hp.imp_of_mem ?_
  intro l1 l2 h1 h2 hR
  rcases hne_case : y with kvs | xs | s | n | b | u
  all_goals subst hne_case
  · have hne1 : l1.1 ≠ [] := by
      simp only [leaves, leavesAux] at h1
      rcases mem_leavesObj kvs [] l1 h1 with ⟨a, v, _, hx⟩
      rcases leavesAux_shape v ([] ++ [Seg.key a]) l1 hx with ⟨q, hq⟩
      simp [hq]
    have hne2 : l2.1 ≠ [] := by
      simp only [leaves, leavesAux] at h2
      rcases mem_leavesObj kvs [] l2 h2 with ⟨a, v, _, hx⟩
      rcases leavesAux_shape v ([] ++ [Seg.key a]) l2 hx with ⟨q, hq⟩
      simp [hq]
    exact keyOf_ne hne1 hne2 hR
  · have hne1 : l1.1 ≠ [] := by
      simp only [leaves, leavesAux] at h1
      rcases mem_leavesArr xs 0 [] l1 h1 with ⟨j, x, _, hx⟩
      rcases leavesAux_shape x ([] ++ [Seg.idx (0 + j)]) l1 hx with ⟨q, hq⟩
      simp [hq]
    have hne2 : l2.1 ≠ [] := by
      simp only [leaves, leavesAux] at h2
      rcases mem_leavesArr xs 0 [] l2 h2 with ⟨j, x, _, hx⟩
      rcases leavesAux_shape x ([] ++ [Seg.idx (0 + j)]) l2 hx with ⟨q, hq⟩
      simp [hq]
    exact keyOf_ne hne1 hne2 hR
  · simp only [leaves, leavesAux, List.mem_singleton] at h1 h2
    subst h1; subst h2
    exact absurd rfl hR
  · simp only [leaves, leavesAux, List.mem_singleton] at h1 h2
    subst h1; subst h2
    exact absurd rfl hR
  · simp only [leaves, leavesAux, List.mem_singleton] at h1 h2
    subst h1; subst h2
    exact absurd rfl hR
  · simp only [leaves, leavesAux, List.mem_singleton] at h1 h2
    subst h1; subst h2
    exact absurd rfl hR

theorem name_extend_key (p : List Seg) (a : String) :
    (⟨pathChars p⟩ : String) ++ a ++ "." = ⟨pathChars (p ++ [Seg.key a])⟩ := by
  apply String.ext
  simp [String.data_append, pathChars_append, pathChars, segChars]

theorem name_extend_idx (p : List Seg) (i : Nat) :
    (⟨pathChars p⟩ : String) ++ Nat.repr i ++ "." = ⟨pathChars (p ++ [Seg.idx i])⟩ := by
  apply String.ext
  simp [String.data_append, pathChars_append, pathChars, segChars]

theorem flatten_leavesObj (kvs : List (String × JVal))
    (IH : ∀ a v, (a, v) ∈ kvs → ∀ (p : List Seg) (out : List (String × JVal)),
        flatten v ⟨pathChars p⟩ out = (leavesAux v p).foldl assignStep out) :
    ∀ (p : List Seg) (out : List (String × JVal)),
      flattenObj kvs ⟨pathChars p⟩ out = (leavesObj kvs p).foldl assignStep out := by
  induction kvs with
  | nil => intro p out; simp [flattenObj, leavesObj]
  | cons av rest ih =>
    cases av with | mk a v =>
    intro p out
    rw [flattenObj, leavesObj, List.foldl_append, name_extend_key,
      IH a v (by simp) (p ++ [Seg.key a]) out]
    exact ih (fun a' v' hm => IH a' v' (by simp [hm])) p _

theorem flatten_leavesArr (xs : List JVal)
    (IH : ∀ x ∈ xs, ∀ (p : List Seg) (out : List (String × JVal)),
        flatten x ⟨pathChars p⟩ out = (leavesAux x p).foldl assignStep out) :
    ∀ (i : Nat) (p : List Seg) (out : List (String × JVal)),
      flattenArr xs i ⟨pathChars p⟩ out = (leavesArr xs i p).foldl assignStep out := by
  induction xs with
  | nil => intro i p out; simp [flattenArr, leavesArr]
  | cons x rest ih =>
    intro i p out
    rw [flattenArr, leavesArr, List.foldl_append, name_extend_idx,
      IH x (by simp) (p ++ [Seg.idx i]) out]
    exact ih (fun x' hm => IH x' (by simp [hm])) (i + 1) p _

theorem flatten_leavesAux :
    (x : JVal) → ∀ (p : List Seg) (out : List (String × JVal)),
      flatten x ⟨pathChars p⟩ out = (leavesAux x p).foldl assignStep out
  | .obj kvs => fun p out => by
    simp only [flatten, leavesAux]
    exact flatten_leavesObj kvs (fun a v hm => flatten_leavesAux v) p out
  | .arr xs => fun p out => by
    simp only [flatten, leavesAux]
    exact flatten_leavesArr xs (fun x hm => flatten_leavesAux x) 0 p out
  | .str s => fun p out => by
    simp [flatten, leavesAux, assignStep, keyOf, dropLastChar]
  | .num n => fun p out => by
    simp [flatten, leavesAux, assignStep, keyOf, dropLastChar]
  | .bool b => fun p out => by
    simp [flatten, leavesAux, assignStep, keyOf, dropLastChar]
  | .null => fun p out => by
    simp [flatten, leavesAux, assignStep, keyOf, dropLastChar]
termination_by x => sizeOf x
decreasing_by
  · have hs := List.sizeOf_lt_of_mem hm
    simp only [Prod.mk.sizeOf_spec] at hs
    simp only [JVal.obj.sizeOf_spec]
    omega
  · have hs := List.sizeOf_lt_of_mem hm
    simp only [JVal.arr.sizeOf_spec]
    omega

theorem foldl_assign_fresh :
    ∀ (l : List (List Seg × JVal)) (out : List (String × JVal)),
      ((l.map (fun e => keyOf e.1)).Nodup) →
      (∀ k ∈ l.map (fun e => keyOf e.1), out.any (fun pr => pr.1 = k) = false) →
      l.foldl assignStep out = out ++ l.map (fun e => (keyOf e.1, e.2)) := by
  intro l
  induction l with
  | nil => intro out _ _; simp
  | cons e rest ih =>
    intro out hnd hfresh
    rw [List.map_cons] at hnd
    obtain ⟨hnotin, hnd'⟩ := List.nodup_cons.1 hnd
    simp only [List.foldl_cons, List.map_cons]
    have hk : out.any (fun pr => pr.1 = keyOf e.1) = false := hfresh _ (by simp)
    have step : assignStep out e = out ++ [(keyOf e.1, e.2)] := by
      simp only [assignStep, dictAssign, hk]
      simp
    rw [step, ih (out ++ [(keyOf e.1, e.2)]) hnd' ?fresh]
    · simp
    case fresh =>
      intro k hkm
      have h1 : out.any (fun pr => pr.1 = k) = false :=
        hfresh k (by rw [List.map_cons]; exact List.mem_cons_of_mem _ hkm)
      have h2 : ¬ (keyOf e.1 = k) := fun hEq => hnotin (hEq ▸ hkm)
      simp [List.any_append, h1, h2]

/-- C3 counterexample: for `collideY` (a legal Python dict: all its dict nodes
have pairwise-distinct keys), two distinct leaf positions — value 1 at path
a→b and value 2 at key "a.b" — produce the same dotted key "a.b", so key
collisions are possible, and the mapping produced by `flatten_json` retains
only the later leaf. -/
theorem flatten_key_collision :
    pyDict collideY = true ∧
    (leaves collideY).map (fun l => (keyOf l.1, l.2)) =
      [("a.b", .num 1), ("a.b", .num 2)] ∧
    ¬ ((leaves collideY).map (fun l => keyOf l.1)).Nodup ∧
    flatten_json collideY = [("a.b", .num 2)] := by
  refine ⟨by rfl, by rfl, by decide, by rfl⟩

/-- C3 amended: provided no mapping key contains the "." separator (and given
that Python dict nodes always have pairwise-distinct keys), every leaf value
has exactly one corresponding key in the mapping produced by `flatten_json`:
the dotted keys of distinct leaf positions are pairwise distinct and the
produced mapping is exactly the depth-first list of leaves under their keys
(flattening the same structure twice trivially yields identical mappings, the
model being a pure function). -/
theorem flatten_json_unique_keys (y : JVal)
    (hwf : pyDict y = true) (hdf : dotFreeKeys y = true) :
    ((leaves y).map (fun l => keyOf l.1)).Nodup ∧
    flatten_json y = (leaves y).map (fun l => (keyOf l.1, l.2)) := by
  have hnd := leaves_keys_nodup y hwf hdf
  refine ⟨hnd, ?_⟩
  have h0 : flatten_json y = flatten y ⟨pathChars []⟩ [] := rfl
  rw [h0, flatten_leavesAux y [] []]
  exact foldl_assign_fresh (leaves y) [] hnd (fun k _ => rfl)

/-- Witness for C3 amended: a dot-free structure with a dict inside a list,
where the flattened mapping is exactly the leaf list under distinct keys. -/
theorem flatten_json_unique_keys_witness :
    pyDict (.obj [("a", .arr [.obj [("b", .num 1)], .num 2])]) = true ∧
    dotFreeKeys (.obj [("a", .arr [.obj [("b", .num 1)], .num 2])]) = true ∧
    flatten_json (.obj [("a", .arr [.obj [("b", .num 1)], .num 2])]) =
      (leaves (.obj [("a", .arr [.obj [("b", .num 1)], .num 2])])).map
        (fun l => (keyOf l.1, l.2)) := by
  refine ⟨by rfl, by rfl,
    (flatten_json_unique_keys (.obj [("a", .arr [.obj [("b", .num 1)], .num 2])])
      (by rfl) (by rfl)).2⟩
